import Mathlib

/-!
Verification of the segment-tree component in `src/segment_tree.hpp`
(template class `ys::SegmentTree`) together with the driver `src/main.cpp`.

The C++ class stores
  * `m_`       : the number of real elements,
  * `n_`       : the number of leaf slots, the smallest power of two that is
                 at least `m_` (computed by doubling from 1),
  * `data_`    : a flat `std::vector<TYPE>` of size `m_ + n_`, a 1-based
                 binary-heap layout whose leaves live at indices
                 `n_ .. n_ + m_ - 1`,
  * `compare_` : a comparator returning an `int`; a non-positive result means
                 the first argument is at least as good as the second.

We embed the state as a `Tree` record over an arbitrary inhabited type; the
C++ `std::vector` is a `List` read through `List.getD` (reads return
`default` when out of range, matching value-initialised storage for all the
in-range accesses; the in-range property itself is proved separately).  The
`while` loops and the recursion of `get_value_sub` are embedded as
fuel-indexed structural recursions; the fuel chosen by the wrappers is proved
sufficient (`updateGo_irrel`, `gvsGo_irrel`), so the wrappers satisfy exactly
the loop/recursion equations of the source and still evaluate by kernel
reduction on concrete inputs.
-/

set_option linter.unusedSectionVars false

namespace SegTree

variable {α : Type} [Inhabited α]

/-- The merge used by the tree, on values: the first argument wins ties
(`compare` non-positive keeps the left argument).  This is exactly the
selection made both in `update` (line 72 of `segment_tree.hpp`: the right
child replaces the left one only on a strictly positive comparison) and in
`get_value_sub` (lines 103-104). -/
def best (cmp : α → α → Int) (x y : α) : α :=
  if cmp x y ≤ 0 then x else y

/-- The comparator contract from the specification: a total, consistent
(transitive) ordering, where `cmp x y ≤ 0` reads "x is at least as good". -/
def TotalCmp (cmp : α → α → Int) : Prop :=
  (∀ x y, cmp x y ≤ 0 ∨ cmp y x ≤ 0) ∧
  (∀ x y z, cmp x y ≤ 0 → cmp y z ≤ 0 → cmp x z ≤ 0)

/-- Modelled from the spec: the brute-force linear-scan oracle, the
comparator-best element among `elems` at 0-based indices `a..b` inclusive,
scanning left to right so that earlier elements win ties. -/
def bruteBest (cmp : α → α → Int) (elems : List α) (a : Nat) : Nat → α
  | 0 => elems.getD a default
  | b + 1 =>
    if a < b + 1 then best cmp (bruteBest cmp elems a b) (elems.getD (b + 1) default)
    else elems.getD a default

/-- The 0-based index that the left-to-right linear scan over `a..b` selects:
the lowest index holding a comparator-best value. -/
def bruteBestIdx (cmp : α → α → Int) (elems : List α) (a : Nat) : Nat → Nat
  | 0 => a
  | b + 1 =>
    if a < b + 1 then
      if cmp (elems.getD (bruteBestIdx cmp elems a b) default)
             (elems.getD (b + 1) default) ≤ 0 then
        bruteBestIdx cmp elems a b
      else b + 1
    else a

/-- A natural number that is a power of two. -/
def IsPow2 (x : Nat) : Prop := ∃ k, x = 2 ^ k

/-- Fuel-indexed version of the sizing loop of `prepare` (line 139 of
`segment_tree.hpp`): `n_ = 1; while (n_ < n) n_ *= 2;`.  The `0 < c` guard
only records that the loop variable stays positive (it starts at 1 and
doubles), which is what makes the loop terminate. -/
def pow2geGo (m : Nat) : Nat → Nat → Nat
  | 0, c => c
  | fuel + 1, c => if 0 < c ∧ c < m then pow2geGo m fuel (c * 2) else c

/-- The value `n_` computed by `prepare` for element count `m`: the smallest
power of two that is at least `m` (for `m ≥ 1`).  `m` itself is enough fuel
because the loop variable strictly increases. -/
def pow2ge (m : Nat) : Nat := pow2geGo m m 1

/-- `SegmentTree::set_leaf_simply` (lines 45-53): write `value` into the leaf
slot `n_ + i`, touching no internal node. -/
def set_leaf_simply (n : Nat) (d : List α) (i : Nat) (v : α) : List α :=
  d.set (n + i) v

/-- Fuel-indexed version of the `while (0 < i)` loop of
`SegmentTree::update` (lines 68-75).  One iteration: halve `i`, name the two
children `h = i*2` and `k = h+1`, move to the right child only when it is
within the bound `e` and strictly better, copy the winner into slot `i`, and
halve the bound `e`. -/
def updateGo (cmp : α → α → Int) : Nat → List α → Nat → Nat → List α
  | 0, d, _, _ => d
  | fuel + 1, d, i, e =>
    if i = 0 then d
    else
      updateGo cmp fuel
        (d.set (i / 2)
          (d.getD
            (if i / 2 * 2 + 1 ≤ e ∧
                0 < cmp (d.getD (i / 2 * 2) default) (d.getD (i / 2 * 2 + 1) default)
             then i / 2 * 2 + 1 else i / 2 * 2) default))
        (i / 2) (e / 2)

/-- The loop of `SegmentTree::update`, entered at tree index `i` with bound
`e`.  Fuel `i` suffices since `i` strictly decreases every iteration. -/
def updateLoop (cmp : α → α → Int) (d : List α) (i e : Nat) : List α :=
  updateGo cmp i d i e

/-- `SegmentTree::update` (lines 60-76): refresh the internal nodes above
external index `i`, walking up from tree index `i + n` with the initial
bound `e = m + n - 1` (the last allocated slot). -/
def update (cmp : α → α → Int) (m n : Nat) (d : List α) (i : Nat) : List α :=
  updateLoop cmp d (i + n) (m + n - 1)

/-- Fuel-indexed version of the recursion of `SegmentTree::get_value_sub`
(lines 89-105).  All indices are 1-based tree positions; result `0` means
"no hit".  A node disjoint from the query contributes `0`, a node contained
in the query contributes its own index, and a straddling node recurses into
both children and keeps the better hit (the left one on ties). -/
def gvsGo (cmp : α → α → Int) (d : List α) (f t : Nat) :
    Nat → Nat → Nat → Nat → Nat
  | 0, _, _, _ => 0
  | fuel + 1, idx, l, r =>
    if r < f ∨ t < l then 0
    else if f ≤ l ∧ r ≤ t then idx
    else
      let c := (l + r) / 2
      let i := gvsGo cmp d f t fuel (idx * 2) l c
      let j := gvsGo cmp d f t fuel (idx * 2 + 1) (c + 1) r
      if j = 0 then i
      else if i = 0 then j
      else if cmp (d.getD i default) (d.getD j default) ≤ 0 then i
      else j

/-- `SegmentTree::get_value_sub` with its natural arguments; the recursion
depth is bounded by the extent `r + 1 - l` of the searched segment, which is
enough fuel. -/
def get_value_sub (cmp : α → α → Int) (d : List α) (f t idx l r : Nat) : Nat :=
  gvsGo cmp d f t (r + 1 - l) idx l r

/-- The state of a `ys::SegmentTree<TYPE>` instance after construction. -/
structure Tree (α : Type) where
  m_ : Nat
  n_ : Nat
  data_ : List α
  compare_ : α → α → Int

/-- The leaf-writing loop of `prepare` (lines 143-145): write the first `mm`
input elements into their leaf slots, in order. -/
def prepLeaves (input : List α) (n : Nat) (d0 : List α) (mm : Nat) : List α :=
  (List.range mm).foldl
    (fun d i => set_leaf_simply n d i (input.getD i default)) d0

/-- The internal-node loop of `prepare` (lines 147-149): call `update` on
the external indices `0, 2, 4, ...` — the first `T` even numbers. -/
def prepSteps (cmp : α → α → Int) (m n : Nat) (d1 : List α) (T : Nat) :
    List α :=
  ((List.range T).map (fun t => 2 * t)).foldl (fun d i => update cmp m n d i) d1

/-- `SegmentTree::prepare` (lines 125-150): record `m`, compute `n_` by
doubling, size the storage to `m_ + n_` (value-initialised, i.e. `default`),
write every input element into its leaf slot, then refresh the internal
nodes by calling `update` on every second external index (the loop
`for (i = 0; i < n; i += 2)` runs for the `(m+1)/2` even indices below
`m`). -/
def prepare (input : List α) (cmp : α → α → Int) : Tree α :=
  let m := input.length
  let n := pow2ge m
  let d0 := List.replicate (m + n) (default : α)
  let d1 := prepLeaves input n d0 m
  let d2 := prepSteps cmp m n d1 ((m + 1) / 2)
  ⟨m, n, d2, cmp⟩

/-- `SegmentTree::set_leaf` (lines 158-168): write the leaf, then refresh
the internal nodes above it. -/
def set_leaf (t : Tree α) (i : Nat) (v : α) : Tree α :=
  { t with data_ := update t.compare_ t.m_ t.n_ (set_leaf_simply t.n_ t.data_ i v) i }

/-- `SegmentTree::get_value` (lines 178-189): search from the root (tree
index 1, covering 1-based leaves `1..n_`) for the best hit of the 1-based
query `from+1 .. to+1`, and return the value stored at the winning index. -/
def get_value (t : Tree α) (f to_ : Nat) : α :=
  t.data_.getD (get_value_sub t.compare_ t.data_ (f + 1) (to_ + 1) 1 1 t.n_) default

/-- `SegmentTree::get_raw_data` (lines 198-203): a pointer to the storage
slot when the index is within `m_ + n_`, a null pointer otherwise. -/
def get_raw_data (t : Tree α) (i : Nat) : Option α :=
  if i < t.m_ + t.n_ then some (t.data_.getD i default) else none

/-- The error taxonomy of the specification (section 7). -/
inductive SegErr where
  | invalidArgument : SegErr
  | outOfRange : SegErr
  | internalInconsistency : SegErr
deriving DecidableEq

/-- `prepare` with its precondition checks made explicit: the three asserts
of lines 130-132 (`data`, `n`, `compare`) surfaced as `InvalidArgument`, per
the specification's error taxonomy.  A null pointer argument is modelled as
`none`; the element count is the length of the passed sequence. -/
def prepareChecked (input : Option (List α)) (cmp : Option (α → α → Int)) :
    Except SegErr (Tree α) :=
  match input, cmp with
  | none, _ => .error .invalidArgument
  | _, none => .error .invalidArgument
  | some l, some c =>
    if l.length = 0 then .error .invalidArgument else .ok (prepare l c)

/-- `set_leaf` with the assert of line 162 (`i < m_`) surfaced as
`OutOfRange`. -/
def set_leafChecked (t : Tree α) (i : Nat) (v : α) : Except SegErr (Tree α) :=
  if i < t.m_ then .ok (set_leaf t i v) else .error .outOfRange

/-- `get_value` with the asserts of lines 182-186 surfaced: `from ≤ to` and
`to < m_` as `InvalidArgument`, and the internal `assert(i)` (no winning
node) as `InternalInconsistency`. -/
def get_valueChecked (t : Tree α) (f to_ : Nat) : Except SegErr α :=
  if f ≤ to_ then
    if to_ < t.m_ then
      let i := get_value_sub t.compare_ t.data_ (f + 1) (to_ + 1) 1 1 t.n_
      if i = 0 then .error .internalInconsistency
      else .ok (t.data_.getD i default)
    else .error .invalidArgument
  else .error .invalidArgument

/-- The storage indices read or written by one run of the `update` loop,
mirroring `updateGo` iteration by iteration: each pass writes `i/2`, reads
the left child `i/2*2`, and reads the right child `i/2*2+1` exactly when it
passes the `k <= e` bound check. -/
def updAccGo : Nat → Nat → Nat → List Nat
  | 0, _, _ => []
  | fuel + 1, i, e =>
    if i = 0 then []
    else
      i / 2 :: i / 2 * 2 ::
        ((if i / 2 * 2 + 1 ≤ e then [i / 2 * 2 + 1] else []) ++
          updAccGo fuel (i / 2) (e / 2))

/-- The storage indices accessed by `update cmp m n d i`. -/
def updateAccesses (m n i : Nat) : List Nat :=
  updAccGo (i + n) (i + n) (m + n - 1)

/-- The storage indices accessed by `set_leaf`: the leaf write of
`set_leaf_simply` followed by the accesses of `update`. -/
def set_leafAccesses (m n i : Nat) : List Nat :=
  (n + i) :: updateAccesses m n i

/-- The storage indices read by `get_value_sub` while merging child results
(lines 103-104 read `data_[i]` and `data_[j]` only when both hits are
nonzero), mirroring `gvsGo`. -/
def gvsReadsGo (cmp : α → α → Int) (d : List α) (f t : Nat) :
    Nat → Nat → Nat → Nat → List Nat
  | 0, _, _, _ => []
  | fuel + 1, idx, l, r =>
    if r < f ∨ t < l then []
    else if f ≤ l ∧ r ≤ t then []
    else
      let c := (l + r) / 2
      let i := gvsGo cmp d f t fuel (idx * 2) l c
      let j := gvsGo cmp d f t fuel (idx * 2 + 1) (c + 1) r
      gvsReadsGo cmp d f t fuel (idx * 2) l c ++
        gvsReadsGo cmp d f t fuel (idx * 2 + 1) (c + 1) r ++
        (if j = 0 then [] else if i = 0 then [] else [i, j])

/-- The storage indices read by the recursion of
`get_value_sub cmp d f t idx l r` at its merge points. -/
def get_value_reads (cmp : α → α → Int) (d : List α) (f t idx l r : Nat) :
    List Nat :=
  gvsReadsGo cmp d f t (r + 1 - l) idx l r

/-- The well-formed tree positions: `Node n i l r` holds when tree index `i`
is the root of the subtree covering the 1-based leaf extent `l..r` of the
implicit full binary subdivision of `1..n` used by `get_value` (root index
1, extent `[1, n]`; a node splits at `(l+r)/2` into children `i*2` and
`i*2+1`, mirroring lines 98-100). -/
inductive Node (n : Nat) : Nat → Nat → Nat → Prop where
  | root : Node n 1 1 n
  | left {i l r : Nat} : Node n i l r → l < r → Node n (i * 2) l ((l + r) / 2)
  | right {i l r : Nat} : Node n i l r → l < r → Node n (i * 2 + 1) ((l + r) / 2 + 1) r

/-- The trees in the specification's Ready state, together with the logical
element sequence they currently hold: a tree freshly built by `prepare` from
a nonempty input, or a Ready tree after a valid `set_leaf`. -/
inductive Reachable {α : Type} [Inhabited α] : Tree α → List α → Prop where
  | prep (input : List α) (cmp : α → α → Int) :
      input ≠ [] → Reachable (prepare input cmp) input
  | step {t : Tree α} {elems : List α} (i : Nat) (v : α) :
      Reachable t elems → i < t.m_ → Reachable (set_leaf t i v) (elems.set i v)

/-- The global tree invariant: every node whose subtree overlaps the valid
leaves `1..m_` stores the comparator-best element of its valid extent
(0-based positions `l-1 .. min r m_ - 1` of the logical sequence). -/
def Correct (t : Tree α) (elems : List α) : Prop :=
  ∀ q l r, Node t.n_ q l r → l ≤ t.m_ →
    t.data_.getD q default =
      bruteBest t.compare_ elems (l - 1) (min r t.m_ - 1)

/-- The comparator of `src/main.cpp` (lines 11-17), with the driver's float
values embedded as integers (every constant and comparison in the driver is
integral, so the embedding is exact). -/
def intCmp (l r : Int) : Int :=
  if l < r then -1 else if r < l then 1 else 0

/-! ## Theorems -/

/-- Update at index `i` keeps the value readable at `i` (needs `i` in range,
like `std::vector::operator[]`). -/
theorem getD_set_self : ∀ (l : List α) (i : Nat) (v d : α), i < l.length →
    (l.set i v).getD i d = v := by
  intro l
  induction l with
  | nil => intro i v d h; simp at h
  | cons a t ih =>
    intro i v d h
    cases i with
    | zero => simp
    | succ i =>
      simp only [List.set_cons_succ, List.getD_cons_succ]
      exact ih i v d (by simpa using h)

/-- Update at index `i` does not change the value read at any other index. -/
theorem getD_set_ne : ∀ (l : List α) (i j : Nat) (v d : α), i ≠ j →
    (l.set i v).getD j d = l.getD j d := by
  intro l
  induction l with
  | nil => intro i j v d _; simp
  | cons a t ih =>
    intro i j v d hij
    cases i with
    | zero =>
      cases j with
      | zero => exact absurd rfl hij
      | succ j => simp
    | succ i =>
      cases j with
      | zero => simp
      | succ j =>
        simp only [List.set_cons_succ, List.getD_cons_succ]
        exact ih i j v d (by omega)

theorem totalCmp_refl {cmp : α → α → Int} (h : TotalCmp cmp) (x : α) :
    cmp x x ≤ 0 := by
  rcases h.1 x x with h' | h' <;> exact h'

theorem bruteBest_self (cmp : α → α → Int) (elems : List α) (a : Nat) :
    bruteBest cmp elems a a = elems.getD a default := by
  cases a with
  | zero => rfl
  | succ b => simp only [bruteBest, if_neg (Nat.lt_irrefl (b + 1))]

theorem bruteBest_step (cmp : α → α → Int) (elems : List α) {a b : Nat}
    (h : a ≤ b) :
    bruteBest cmp elems a (b + 1) =
      best cmp (bruteBest cmp elems a b) (elems.getD (b + 1) default) := by
  simp only [bruteBest, if_pos (Nat.lt_succ_of_le h)]

/-- The oracle only reads the list at positions inside `a..b`. -/
theorem bruteBest_congr (cmp : α → α → Int) {e₁ e₂ : List α} (a : Nat) :
    ∀ b, a ≤ b → (∀ p, a ≤ p → p ≤ b → e₁.getD p default = e₂.getD p default) →
      bruteBest cmp e₁ a b = bruteBest cmp e₂ a b := by
  intro b
  induction b with
  | zero =>
    intro hab h
    have ha : a = 0 := by omega
    subst ha
    simp only [bruteBest]
    exact h 0 (Nat.le_refl _) (Nat.le_refl _)
  | succ b ih =>
    intro hab h
    by_cases hab' : a < b + 1
    · have h1 : bruteBest cmp e₁ a b = bruteBest cmp e₂ a b :=
        ih (by omega) (fun p hp1 hp2 => h p hp1 (Nat.le_succ_of_le hp2))
      have h2 := h (b + 1) (Nat.le_of_lt hab') (Nat.le_refl _)
      simp only [bruteBest, if_pos hab', h1, h2]
    · have ha : a = b + 1 := by omega
      simp only [bruteBest, if_neg hab']
      exact h a (Nat.le_refl _) (by omega)

theorem best_assoc {cmp : α → α → Int} (hc : TotalCmp cmp) (x y z : α) :
    best cmp (best cmp x y) z = best cmp x (best cmp y z) := by
  unfold best
  by_cases hxy : cmp x y ≤ 0 <;> by_cases hyz : cmp y z ≤ 0
  · simp only [if_pos hxy, if_pos hyz, if_pos (hc.2 x y z hxy hyz)]
  · simp only [if_pos hxy, if_neg hyz]
  · simp only [if_neg hxy, if_pos hyz]
  · have hzy : cmp z y ≤ 0 := (hc.1 y z).resolve_left hyz
    have hxz : ¬ cmp x z ≤ 0 := fun hxz => hxy (hc.2 x z y hxz hzy)
    simp only [if_neg hxy, if_neg hyz, if_neg hxz]

/-- Splitting the scanned range: the best over `a..c` is the merge of the
best over `a..b` and the best over `b+1..c`. -/
theorem bruteBest_split (cmp : α → α → Int) (hc : TotalCmp cmp)
    (elems : List α) {a b : Nat} :
    ∀ c, a ≤ b → b < c →
      bruteBest cmp elems a c =
        best cmp (bruteBest cmp elems a b) (bruteBest cmp elems (b + 1) c) := by
  intro c
  induction c with
  | zero => intro _ h; omega
  | succ c ih =>
    intro hab hbc
    by_cases hbc' : b < c
    · have hac : a < c + 1 := by omega
      rw [bruteBest_step cmp elems (by omega), ih hab hbc',
        best_assoc hc, ← bruteBest_step cmp elems (by omega)]
    · have hb : b = c := by omega
      subst hb
      rw [bruteBest_step cmp elems hab, bruteBest_self]

/-- Splitting in 1-based bounds: the best over 1-based `a..c` splits at `b`
into `a..b` and `b+1..c` (all three converted to 0-based by subtracting 1). -/
theorem bruteBest_split1 {cmp : α → α → Int} (hc : TotalCmp cmp)
    (elems : List α) {a b c : Nat} (ha : 1 ≤ a) (hab : a ≤ b) (hbc : b < c) :
    bruteBest cmp elems (a - 1) (c - 1) =
      best cmp (bruteBest cmp elems (a - 1) (b - 1))
        (bruteBest cmp elems b (c - 1)) := by
  have h1 : b - 1 + 1 = b := by omega
  have h := bruteBest_split cmp hc elems (c - 1)
    (show a - 1 ≤ b - 1 by omega) (show b - 1 < c - 1 by omega)
  rw [h1] at h
  exact h

/-- The scan's value is the element at the scan's chosen index. -/
theorem bruteBest_eq_idx (cmp : α → α → Int) (elems : List α) (a : Nat) :
    ∀ b, bruteBest cmp elems a b =
      elems.getD (bruteBestIdx cmp elems a b) default := by
  intro b
  induction b with
  | zero => simp only [bruteBest, bruteBestIdx]
  | succ b ih =>
    by_cases hab : a < b + 1
    · by_cases hcm : cmp (elems.getD (bruteBestIdx cmp elems a b) default)
          (elems.getD (b + 1) default) ≤ 0
      · rw [show bruteBestIdx cmp elems a (b + 1) = bruteBestIdx cmp elems a b by
          simp only [bruteBestIdx, if_pos hab, if_pos hcm]]
        simp only [bruteBest, if_pos hab, best, ih, if_pos hcm]
      · rw [show bruteBestIdx cmp elems a (b + 1) = b + 1 by
          simp only [bruteBestIdx, if_pos hab, if_neg hcm]]
        simp only [bruteBest, if_pos hab, best, ih, if_neg hcm]
    · simp only [bruteBest, bruteBestIdx, if_neg hab]

/-- The chosen index lies in the scanned range. -/
theorem bruteBestIdx_mem (cmp : α → α → Int) (elems : List α) (a : Nat) :
    ∀ b, a ≤ b → a ≤ bruteBestIdx cmp elems a b ∧ bruteBestIdx cmp elems a b ≤ b := by
  intro b
  induction b with
  | zero => intro h; simp only [bruteBestIdx]; omega
  | succ b ih =>
    intro hab'
    by_cases hab : a < b + 1
    · have := ih (by omega)
      by_cases hcm : cmp (elems.getD (bruteBestIdx cmp elems a b) default)
          (elems.getD (b + 1) default) ≤ 0 <;>
        simp only [bruteBestIdx, if_pos hab, if_pos, if_neg, hcm, ite_true,
          ite_false, not_false_iff] <;> omega
    · simp only [bruteBestIdx, if_neg hab]; omega

/-- The chosen index holds a comparator-best value of the range. -/
theorem bruteBestIdx_optimal {cmp : α → α → Int} (hc : TotalCmp cmp)
    (elems : List α) (a : Nat) :
    ∀ b, a ≤ b → ∀ q, a ≤ q → q ≤ b →
      cmp (elems.getD (bruteBestIdx cmp elems a b) default)
          (elems.getD q default) ≤ 0 := by
  intro b
  induction b with
  | zero =>
    intro hab q hq1 hq2
    have : q = 0 := by omega
    subst this
    have : a = 0 := by omega
    subst this
    simpa [bruteBestIdx] using totalCmp_refl hc _
  | succ b ih =>
    intro _ q hq1 hq2
    by_cases hab : a < b + 1
    · by_cases hcm : cmp (elems.getD (bruteBestIdx cmp elems a b) default)
          (elems.getD (b + 1) default) ≤ 0
      · simp only [bruteBestIdx, if_pos hab, if_pos hcm, ite_true, hcm]
        rcases Nat.lt_or_ge q (b + 1) with hq | hq
        · exact ih (by omega) q hq1 (by omega)
        · have : q = b + 1 := by omega
          subst this; exact hcm
      · simp only [bruteBestIdx, if_pos hab, if_neg hcm, ite_false]
        have hle : cmp (elems.getD (b + 1) default)
            (elems.getD (bruteBestIdx cmp elems a b) default) ≤ 0 := by
          rcases hc.1 (elems.getD (bruteBestIdx cmp elems a b) default)
            (elems.getD (b + 1) default) with h | h
          · exact absurd h hcm
          · exact h
        rcases Nat.lt_or_ge q (b + 1) with hq | hq
        · exact hc.2 _ _ _ hle (ih (by omega) q hq1 (by omega))
        · have : q = b + 1 := by omega
          subst this; exact totalCmp_refl hc _
    · have : q = a := by omega
      subst this
      simpa [bruteBestIdx, hab] using totalCmp_refl hc _

/-- Every index of the range before the chosen one holds a strictly worse
value: the scan keeps the earlier element on ties. -/
theorem bruteBestIdx_leftmost {cmp : α → α → Int} (hc : TotalCmp cmp)
    (elems : List α) (a : Nat) :
    ∀ b, a ≤ b → ∀ q, a ≤ q → q < bruteBestIdx cmp elems a b →
      ¬ cmp (elems.getD q default)
            (elems.getD (bruteBestIdx cmp elems a b) default) ≤ 0 := by
  intro b
  induction b with
  | zero => intro hab q hq1 hq2; simp only [bruteBestIdx] at hq2; omega
  | succ b ih =>
    intro _ q hq1 hq2
    by_cases hab : a < b + 1
    · by_cases hcm : cmp (elems.getD (bruteBestIdx cmp elems a b) default)
          (elems.getD (b + 1) default) ≤ 0
      · simp only [bruteBestIdx, if_pos hab, if_pos hcm, ite_true] at hq2 ⊢
        exact ih (by omega) q hq1 hq2
      · simp only [bruteBestIdx, if_pos hab, if_neg hcm, ite_false] at hq2 ⊢
        intro hle
        have hqb : q ≤ b := by omega
        have h1 : cmp (elems.getD (bruteBestIdx cmp elems a b) default)
            (elems.getD q default) ≤ 0 :=
          bruteBestIdx_optimal hc elems a b (by omega) q hq1 hqb
        exact hcm (hc.2 _ _ _ h1 hle)
    · simp only [bruteBestIdx, if_neg hab] at hq2; omega

/-- Some position of the range supplies the oracle's value. -/
theorem bruteBest_mem (cmp : α → α → Int) (elems : List α) (a : Nat) :
    ∀ b, a ≤ b → ∃ p, a ≤ p ∧ p ≤ b ∧
      bruteBest cmp elems a b = elems.getD p default := by
  intro b hab
  refine ⟨bruteBestIdx cmp elems a b, (bruteBestIdx_mem cmp elems a b hab).1,
    (bruteBestIdx_mem cmp elems a b hab).2, bruteBest_eq_idx cmp elems a b⟩

theorem isPow2_pos {x : Nat} (h : IsPow2 x) : 0 < x := by
  obtain ⟨k, rfl⟩ := h
  exact Nat.pos_pow_of_pos k (by omega)

/-- The sizing loop never stops below `m` while it has fuel left. -/
theorem pow2geGo_ge (m : Nat) :
    ∀ fuel c, m - c ≤ fuel → 0 < c → m ≤ pow2geGo m fuel c := by
  intro fuel
  induction fuel with
  | zero =>
    intro c h hc
    simp only [pow2geGo]
    omega
  | succ fuel ih =>
    intro c h hc
    by_cases hg : 0 < c ∧ c < m
    · simp only [pow2geGo, if_pos hg]
      exact ih (c * 2) (by omega) (by omega)
    · simp only [pow2geGo, if_neg hg]
      omega

/-- The sizing loop preserves powers of two. -/
theorem pow2geGo_pow (m : Nat) :
    ∀ fuel c, IsPow2 c → IsPow2 (pow2geGo m fuel c) := by
  intro fuel
  induction fuel with
  | zero => intro c h; simpa only [pow2geGo] using h
  | succ fuel ih =>
    intro c h
    by_cases hg : 0 < c ∧ c < m
    · simp only [pow2geGo, if_pos hg]
      obtain ⟨k, rfl⟩ := h
      exact ih _ ⟨k + 1, by rw [pow_succ]⟩
    · simpa only [pow2geGo, if_neg hg] using h

/-- The sizing loop never overshoots a power of two that is already `≥ m`,
as long as every smaller power of two is below `m`. -/
theorem pow2geGo_min (m : Nat) :
    ∀ fuel c, 0 < c → IsPow2 c → (∀ q, IsPow2 q → q < c → q < m) →
      ∀ p, IsPow2 p → m ≤ p → pow2geGo m fuel c ≤ p := by
  intro fuel
  induction fuel with
  | zero =>
    intro c hc hcp hbelow p hp hmp
    simp only [pow2geGo]
    rcases Nat.lt_or_ge p c with h | h
    · have := hbelow p hp h
      omega
    · exact h
  | succ fuel ih =>
    intro c hc hcp hbelow p hp hmp
    by_cases hg : 0 < c ∧ c < m
    · simp only [pow2geGo, if_pos hg]
      refine ih (c * 2) (by omega) ?_ ?_ p hp hmp
      · obtain ⟨k, rfl⟩ := hcp
        exact ⟨k + 1, by rw [pow_succ]⟩
      · intro q hq hqc
        rcases Nat.lt_or_ge q c with h | h
        · exact hbelow q hq h
        · rcases Nat.lt_or_eq_of_le h with h' | h'
          · -- a power of two strictly between c and 2c cannot exist
            obtain ⟨a, rfl⟩ := hq
            obtain ⟨b, rfl⟩ := hcp
            have hba : b < a := (Nat.pow_lt_pow_iff_right (by omega)).mp h'
            have : 2 ^ (b + 1) ≤ 2 ^ a := Nat.pow_le_pow_right (by omega) (by omega)
            rw [pow_succ] at this
            omega
          · omega
    · simp only [pow2geGo, if_neg hg]
      rcases Nat.lt_or_ge p c with h | h
      · exact absurd (hbelow p hp h) (by omega)
      · exact h

theorem pow2ge_ge (m : Nat) : m ≤ pow2ge m :=
  pow2geGo_ge m m 1 (by omega) (by omega)

theorem pow2ge_isPow2 (m : Nat) : IsPow2 (pow2ge m) :=
  pow2geGo_pow m m 1 ⟨0, rfl⟩

theorem pow2ge_pos (m : Nat) : 0 < pow2ge m :=
  isPow2_pos (pow2ge_isPow2 m)

theorem pow2ge_min (m : Nat) :
    ∀ p, IsPow2 p → m ≤ p → pow2ge m ≤ p := by
  intro p hp hmp
  refine pow2geGo_min m m 1 (by omega) ⟨0, rfl⟩ ?_ p hp hmp
  intro q hq hq1
  exact absurd (isPow2_pos hq) (by omega)

/-- The update loop does nothing once `i` has reached 0 (the `while` guard
fails). -/
theorem updateGo_zero (cmp : α → α → Int) :
    ∀ fuel (d : List α) e, updateGo cmp fuel d 0 e = d := by
  intro fuel d e
  cases fuel <;> simp [updateGo]

/-- The update loop's result does not depend on the fuel, once the fuel is
at least `i` (the loop runs fewer than `i` iterations since `i` strictly
decreases). -/
theorem updateGo_irrel (cmp : α → α → Int) :
    ∀ f1 f2 (d : List α) i e, i ≤ f1 → i ≤ f2 →
      updateGo cmp f1 d i e = updateGo cmp f2 d i e := by
  intro f1
  induction f1 with
  | zero =>
    intro f2 d i e h1 _
    have hi : i = 0 := by omega
    subst hi
    rw [updateGo_zero, updateGo_zero]
  | succ f1 ih =>
    intro f2 d i e h1 h2
    by_cases hi : i = 0
    · subst hi
      rw [updateGo_zero, updateGo_zero]
    · cases f2 with
      | zero => omega
      | succ f2 =>
        simp only [updateGo, if_neg hi]
        exact ih f2 _ (i / 2) (e / 2) (by omega) (by omega)

/-- The loop equation of `update` (lines 68-75): one iteration halves `i`,
compares the two children of the halved index (reading the right one only
within the bound `e`), writes the winner into `i`, and halves `e`. -/
theorem updateLoop_eq (cmp : α → α → Int) (d : List α) (i e : Nat) :
    updateLoop cmp d i e =
      if i = 0 then d
      else
        updateLoop cmp
          (d.set (i / 2)
            (d.getD
              (if i / 2 * 2 + 1 ≤ e ∧
                  0 < cmp (d.getD (i / 2 * 2) default) (d.getD (i / 2 * 2 + 1) default)
               then i / 2 * 2 + 1 else i / 2 * 2) default))
          (i / 2) (e / 2) := by
  by_cases hi : i = 0
  · subst hi
    simp only [updateLoop, if_pos rfl]
    exact updateGo_zero cmp 0 d e
  · rw [if_neg hi]
    unfold updateLoop
    cases i with
    | zero => exact absurd rfl hi
    | succ u =>
      simp only [updateGo, if_neg hi]
      exact updateGo_irrel cmp u _ _ ((u + 1) / 2) (e / 2) (by omega) (by omega)

/-- The query recursion's result does not depend on the fuel, once the fuel
exceeds the extent `r - l` of the searched segment. -/
theorem gvsGo_irrel (cmp : α → α → Int) (d : List α) (f t : Nat) :
    ∀ f1 f2 idx l r, r - l < f1 → r - l < f2 →
      gvsGo cmp d f t f1 idx l r = gvsGo cmp d f t f2 idx l r := by
  intro f1
  induction f1 with
  | zero => intro f2 idx l r h1 _; omega
  | succ f1 ih =>
    intro f2 idx l r h1 h2
    cases f2 with
    | zero => omega
    | succ f2 =>
      by_cases hg1 : r < f ∨ t < l
      · simp only [gvsGo, if_pos hg1]
      · by_cases hg2 : f ≤ l ∧ r ≤ t
        · simp only [gvsGo, if_neg hg1, if_pos hg2]
        · have hlr : l < r := by
            rcases Nat.lt_or_ge l r with h | h
            · exact h
            · exfalso; push_neg at hg1; omega
          have hc1 : (l + r) / 2 - l < f1 := by omega
          have hc2 : r - ((l + r) / 2 + 1) < f1 := by omega
          simp only [gvsGo, if_neg hg1, if_neg hg2]
          rw [ih f2 (idx * 2) l ((l + r) / 2) hc1 (by omega),
            ih f2 (idx * 2 + 1) ((l + r) / 2 + 1) r hc2 (by omega)]

/-- The recursion equation of `get_value_sub` (lines 96-104), for a
well-formed segment `l ≤ r`. -/
theorem get_value_sub_eq (cmp : α → α → Int) (d : List α) (f t idx l r : Nat)
    (hlr : l ≤ r) :
    get_value_sub cmp d f t idx l r =
      if r < f ∨ t < l then 0
      else if f ≤ l ∧ r ≤ t then idx
      else if get_value_sub cmp d f t (idx * 2 + 1) ((l + r) / 2 + 1) r = 0 then
        get_value_sub cmp d f t (idx * 2) l ((l + r) / 2)
      else if get_value_sub cmp d f t (idx * 2) l ((l + r) / 2) = 0 then
        get_value_sub cmp d f t (idx * 2 + 1) ((l + r) / 2 + 1) r
      else if cmp
          (d.getD (get_value_sub cmp d f t (idx * 2) l ((l + r) / 2)) default)
          (d.getD (get_value_sub cmp d f t (idx * 2 + 1) ((l + r) / 2 + 1) r) default)
          ≤ 0 then
        get_value_sub cmp d f t (idx * 2) l ((l + r) / 2)
      else get_value_sub cmp d f t (idx * 2 + 1) ((l + r) / 2 + 1) r := by
  unfold get_value_sub
  have hf : r + 1 - l = (r - l) + 1 := by omega
  rw [hf]
  by_cases hg1 : r < f ∨ t < l
  · simp only [gvsGo, if_pos hg1]
  · by_cases hg2 : f ≤ l ∧ r ≤ t
    · simp only [gvsGo, if_neg hg1, if_pos hg2]
    · have hlr' : l < r := by
        rcases Nat.lt_or_ge l r with h | h
        · exact h
        · exfalso; push_neg at hg1; omega
      simp only [gvsGo, if_neg hg1, if_neg hg2]
      rw [gvsGo_irrel cmp d f t (r - l) ((l + r) / 2 + 1 - l) (idx * 2) l
          ((l + r) / 2) (by omega) (by omega),
        gvsGo_irrel cmp d f t (r - l) (r + 1 - ((l + r) / 2 + 1)) (idx * 2 + 1)
          ((l + r) / 2 + 1) r (by omega) (by omega)]

/-- Geometry of a tree position: the covered leaf extent `l..r` is nonempty,
lies inside `1..n`, its width is a power of two `2^j`, and the index and
extent satisfy `i * 2^j = n + l - 1` (leaf 1-based position `l` sits at tree
index `n + l - 1`). -/
theorem node_spec {n : Nat} (hn2 : IsPow2 n) :
    ∀ {i l r : Nat}, Node n i l r →
      1 ≤ l ∧ l ≤ r ∧ r ≤ n ∧ ∃ j, r + 1 - l = 2 ^ j ∧ i * 2 ^ j = n + l - 1 := by
  intro i l r hn
  induction hn with
  | root =>
    have hpos : 0 < n := isPow2_pos hn2
    obtain ⟨D, hD⟩ := hn2
    exact ⟨Nat.le_refl 1, hpos, Nat.le_refl n, D, by omega, by omega⟩
  | @left i l r h hlt ih =>
    obtain ⟨h1, h2, h3, j, hw, hi⟩ := ih
    cases j with
    | zero => simp only [pow_zero] at hw; omega
    | succ j' =>
      have hu : (2:Nat) ^ (j' + 1) = 2 * 2 ^ j' := by rw [pow_succ]; ring
      have hupos : 0 < (2:Nat) ^ j' := pow_pos (by omega) j'
      have hw' : r + 1 - l = 2 * 2 ^ j' := by rw [hw, hu]
      refine ⟨h1, by omega, by omega, j', by omega, ?_⟩
      have hmul : i * 2 * 2 ^ j' = i * 2 ^ (j' + 1) := by rw [hu]; ring
      omega
  | @right i l r h hlt ih =>
    obtain ⟨h1, h2, h3, j, hw, hi⟩ := ih
    cases j with
    | zero => simp only [pow_zero] at hw; omega
    | succ j' =>
      have hu : (2:Nat) ^ (j' + 1) = 2 * 2 ^ j' := by rw [pow_succ]; ring
      have hupos : 0 < (2:Nat) ^ j' := pow_pos (by omega) j'
      have hw' : r + 1 - l = 2 * 2 ^ j' := by rw [hw, hu]
      refine ⟨by omega, by omega, h3, j', by omega, ?_⟩
      have hmul : (i * 2 + 1) * 2 ^ j' = i * 2 ^ (j' + 1) + 2 ^ j' := by
        rw [hu]; ring
      omega

/-- Tree positions are 1-based: a node index is never 0. -/
theorem node_pos {n : Nat} (hn2 : IsPow2 n) {i l r : Nat} (h : Node n i l r) :
    1 ≤ i := by
  obtain ⟨h1, h2, h3, j, hw, hi⟩ := node_spec hn2 h
  have hpos : 0 < n := isPow2_pos hn2
  by_contra hc
  have hz : i = 0 := by omega
  subst hz
  simp only [Nat.zero_mul] at hi
  omega

/-- A tree index determines its covered extent. -/
theorem node_unique {n : Nat} (hn2 : IsPow2 n) {i l r l' r' : Nat}
    (h : Node n i l r) (h' : Node n i l' r') : l = l' ∧ r = r' := by
  obtain ⟨a1, a2, a3, j, hw, hi⟩ := node_spec hn2 h
  obtain ⟨b1, b2, b3, j', hw', hi'⟩ := node_spec hn2 h'
  have hpos := node_pos hn2 h
  have hj : j = j' := by
    rcases Nat.lt_trichotomy j j' with hlt | heq | hgt
    · exfalso
      have hp : 2 ^ (j + 1) ≤ 2 ^ j' := Nat.pow_le_pow_right (by omega) (by omega)
      rw [pow_succ] at hp
      have h1 : i * (2 ^ j * 2) ≤ i * 2 ^ j' := Nat.mul_le_mul_left i hp
      have h2 : i * (2 ^ j * 2) = i * 2 ^ j * 2 := by ring
      omega
    · exact heq
    · exfalso
      have hp : 2 ^ (j' + 1) ≤ 2 ^ j := Nat.pow_le_pow_right (by omega) (by omega)
      rw [pow_succ] at hp
      have h1 : i * (2 ^ j' * 2) ≤ i * 2 ^ j := Nat.mul_le_mul_left i hp
      have h2 : i * (2 ^ j' * 2) = i * 2 ^ j' * 2 := by ring
      omega
  subst hj
  omega

/-- Any leaf position covered by a node yields the leaf's own tree position
(index `n + pos - 1`, extent `pos..pos`). -/
theorem node_point {n : Nat} (hn2 : IsPow2 n) :
    ∀ w i l r, Node n i l r → r - l ≤ w → ∀ pos, l ≤ pos → pos ≤ r →
      Node n (n + pos - 1) pos pos := by
  intro w
  induction w with
  | zero =>
    intro i l r hn hw pos h1 h2
    obtain ⟨a1, a2, a3, j, hwj, hi⟩ := node_spec hn2 hn
    have hlr : l = r := by omega
    subst hlr
    have hpos : pos = l := by omega
    subst hpos
    have hj : j = 0 := by
      cases j with
      | zero => rfl
      | succ j' =>
        exfalso
        have hu : (2:Nat) ^ (j' + 1) = 2 * 2 ^ j' := by rw [pow_succ]; ring
        have hupos : 0 < (2:Nat) ^ j' := pow_pos (by omega) j'
        omega
    subst hj
    simp only [pow_zero, Nat.mul_one] at hi
    exact hi ▸ hn
  | succ w ih =>
    intro i l r hn hw pos h1 h2
    rcases Nat.lt_or_ge l r with hlt | hge
    · by_cases hp : pos ≤ (l + r) / 2
      · exact ih (i * 2) l ((l + r) / 2) (Node.left hn hlt) (by omega) pos h1 hp
      · exact ih (i * 2 + 1) ((l + r) / 2 + 1) r (Node.right hn hlt) (by omega)
          pos (by omega) h2
    · exact ih i l r hn (by omega) pos h1 h2

/-- The tree position of external leaf `p`: index `n + p`, 1-based extent
`p+1 .. p+1`. -/
theorem node_leaf {n : Nat} (hn2 : IsPow2 n) (p : Nat) (hp : p < n) :
    Node n (n + p) (p + 1) (p + 1) := by
  have h := node_point hn2 (n - 1) 1 1 n Node.root (by omega) (p + 1)
    (by omega) (by omega)
  have he : n + (p + 1) - 1 = n + p := by omega
  rwa [he] at h

/-- A node covering a leaf position is the ancestor reached from the leaf's
tree index by dividing by the node's width. -/
theorem node_div {n : Nat} (hn2 : IsPow2 n) {i l r : Nat} (h : Node n i l r)
    {pos : Nat} (h1 : l ≤ pos) (h2 : pos ≤ r) :
    (n + pos - 1) / (r + 1 - l) = i := by
  obtain ⟨a1, a2, a3, j, hw, hi⟩ := node_spec hn2 h
  have hjpos : 0 < (2:Nat) ^ j := pow_pos (by omega) j
  rw [hw]
  have hlo : i * 2 ^ j ≤ n + pos - 1 := by omega
  have hhi : n + pos - 1 < i * 2 ^ j + 2 ^ j := by omega
  rw [Nat.div_eq_of_lt_le hlo (by rw [Nat.succ_mul]; omega)]

/-- Conversely: if a node's index is obtained from a leaf's tree index
`n + s` by iterated halving, then the node covers the leaf position
`s + 1`. -/
theorem node_chain {n : Nat} (hn2 : IsPow2 n) {q l r s t : Nat}
    (h : Node n q l r) (hs : s < n) (hq : q = (n + s) / 2 ^ t) :
    l ≤ s + 1 ∧ s + 1 ≤ r := by
  obtain ⟨a1, a2, a3, j, hw, hi⟩ := node_spec hn2 h
  have hqpos := node_pos hn2 h
  have h2t : 0 < (2:Nat) ^ t := pow_pos (by omega) t
  have h2j : 0 < (2:Nat) ^ j := pow_pos (by omega) j
  obtain ⟨D, hD⟩ := hn2
  have htn : 2 ^ t ≤ n := by
    by_contra hc
    push_neg at hc
    have htD : D < t := by
      by_contra hDt
      push_neg at hDt
      have : (2:Nat) ^ t ≤ 2 ^ D := Nat.pow_le_pow_right (by omega) hDt
      omega
    have h2n : 2 * n ≤ 2 ^ t := by
      have : (2:Nat) ^ (D + 1) ≤ 2 ^ t := Nat.pow_le_pow_right (by omega) (by omega)
      rw [pow_succ] at this
      omega
    have : (n + s) / 2 ^ t = 0 := Nat.div_eq_of_lt (by omega)
    omega
  have hdvd : 2 ^ t ∣ n := by
    rw [hD]
    refine pow_dvd_pow 2 ?_
    by_contra hc
    push_neg at hc
    have : (2:Nat) ^ (D + 1) ≤ 2 ^ t := Nat.pow_le_pow_right (by omega) (by omega)
    have h2 : (2:Nat) ^ D < 2 ^ (D + 1) := by
      rw [pow_succ]; omega
    omega
  have hql : n ≤ q * 2 ^ t := by
    have hdm : n / 2 ^ t * 2 ^ t = n := Nat.div_mul_cancel hdvd
    have h1 : n / 2 ^ t ≤ q := by
      rw [hq]
      exact Nat.div_le_div_right (Nat.le_add_right n s)
    have := Nat.mul_le_mul_right (2 ^ t) h1
    omega
  have hqu : q * 2 ^ t ≤ n + s := by
    rw [hq]
    exact Nat.div_mul_le_self (n + s) (2 ^ t)
  have hqu2 : n + s < q * 2 ^ t + 2 ^ t := by
    have hmod := Nat.div_add_mod (n + s) (2 ^ t)
    have hmlt := Nat.mod_lt (n + s) h2t
    have hcomm : 2 ^ t * ((n + s) / 2 ^ t) = (n + s) / 2 ^ t * 2 ^ t :=
      Nat.mul_comm _ _
    rw [hq]
    omega
  have hjt : (2:Nat) ^ j = 2 ^ t := by
    rcases Nat.lt_trichotomy j t with hlt | heq | hgt
    · exfalso
      have hp : 2 ^ (j + 1) ≤ 2 ^ t := Nat.pow_le_pow_right (by omega) (by omega)
      rw [pow_succ] at hp
      have h1 : q * (2 ^ j * 2) ≤ q * 2 ^ t := Nat.mul_le_mul_left q hp
      have h2 : q * (2 ^ j * 2) = q * 2 ^ j * 2 := by ring
      omega
    · rw [heq]
    · exfalso
      have hp : 2 ^ (t + 1) ≤ 2 ^ j := Nat.pow_le_pow_right (by omega) (by omega)
      rw [pow_succ] at hp
      have h1 : q * (2 ^ t * 2) ≤ q * 2 ^ j := Nat.mul_le_mul_left q hp
      have h2 : q * (2 ^ t * 2) = q * 2 ^ t * 2 := by ring
      omega
  have hfinal : q * 2 ^ t = n + l - 1 := by rw [← hjt]; exact hi
  omega

/-- Node indices over the valid extent stay below the storage size: a node
whose extent starts at a valid leaf has index at most `n + m - 1`. -/
theorem node_le_storage {n : Nat} (hn2 : IsPow2 n) {i l r m : Nat}
    (h : Node n i l r) (hl : l ≤ m) : i ≤ n + m - 1 := by
  obtain ⟨a1, a2, a3, j, hw, hi⟩ := node_spec hn2 h
  have h2j : 0 < (2:Nat) ^ j := pow_pos (by omega) j
  have : i ≤ i * 2 ^ j := Nat.le_mul_of_pos_right i h2j
  omega

/-- Structure of the query recursion on a well-formed node: when the node's
extent misses the query `f..t` the result is the failure marker 0, and when
it overlaps the result is a well-formed node index whose extent lies inside
the intersection of the query and the node's extent. -/
theorem gvs_result {n : Nat} (hn2 : IsPow2 n) (cmp : α → α → Int)
    (d : List α) (f t : Nat) (hft : f ≤ t) :
    ∀ w idx l r, r - l ≤ w → Node n idx l r →
      (¬ (f ≤ r ∧ l ≤ t) → get_value_sub cmp d f t idx l r = 0) ∧
      ((f ≤ r ∧ l ≤ t) →
        ∃ l' r', Node n (get_value_sub cmp d f t idx l r) l' r' ∧
          max f l ≤ l' ∧ r' ≤ min t r) := by
  intro w
  induction w with
  | zero =>
    intro idx l r hw hn
    have hspec := node_spec hn2 hn
    have hlr : l ≤ r := hspec.2.1
    rw [get_value_sub_eq cmp d f t idx l r hlr]
    by_cases hg1 : r < f ∨ t < l
    · rw [if_pos hg1]
      exact ⟨fun _ => rfl, fun hov => absurd hov (by omega)⟩
    · rw [if_neg hg1]
      push_neg at hg1
      refine ⟨fun hno => absurd ⟨hg1.1, hg1.2⟩ hno, fun _ => ?_⟩
      have hg2 : f ≤ l ∧ r ≤ t := by omega
      rw [if_pos hg2]
      exact ⟨l, r, hn, max_le hg2.1 (Nat.le_refl l), le_min hg2.2 (Nat.le_refl r)⟩
  | succ w ih =>
    intro idx l r hw hn
    have hspec := node_spec hn2 hn
    have hlr : l ≤ r := hspec.2.1
    rw [get_value_sub_eq cmp d f t idx l r hlr]
    by_cases hg1 : r < f ∨ t < l
    · rw [if_pos hg1]
      exact ⟨fun _ => rfl, fun hov => absurd hov (by omega)⟩
    · rw [if_neg hg1]
      push_neg at hg1
      refine ⟨fun hno => absurd ⟨hg1.1, hg1.2⟩ hno, fun _ => ?_⟩
      by_cases hg2 : f ≤ l ∧ r ≤ t
      · rw [if_pos hg2]
        exact ⟨l, r, hn, max_le hg2.1 (Nat.le_refl l), le_min hg2.2 (Nat.le_refl r)⟩
      · rw [if_neg hg2]
        have hlt : l < r := by omega
        have hnl := Node.left hn hlt
        have hnr := Node.right hn hlt
        have IHL := ih (idx * 2) l ((l + r) / 2) (by omega) hnl
        have IHR := ih (idx * 2 + 1) ((l + r) / 2 + 1) r (by omega) hnr
        by_cases hj : get_value_sub cmp d f t (idx * 2 + 1) ((l + r) / 2 + 1) r = 0
        · rw [if_pos hj]
          have hno_r : ¬ (f ≤ r ∧ (l + r) / 2 + 1 ≤ t) := by
            intro hov
            obtain ⟨l', r', hnode, _, _⟩ := IHR.2 hov
            rw [hj] at hnode
            exact absurd (node_pos hn2 hnode) (Nat.not_succ_le_zero 0)
          have htc : t ≤ (l + r) / 2 := by
            rcases Nat.lt_or_ge ((l + r) / 2) t with h | h
            · exact absurd ⟨hg1.1, by omega⟩ hno_r
            · exact h
          have hcr : (l + r) / 2 ≤ r := by omega
          obtain ⟨l', r', hnode, hb1, hb2⟩ := IHL.2 ⟨by omega, hg1.2⟩
          exact ⟨l', r', hnode, hb1,
            le_trans hb2 (min_le_min (Nat.le_refl t) hcr)⟩
        · rw [if_neg hj]
          by_cases hi : get_value_sub cmp d f t (idx * 2) l ((l + r) / 2) = 0
          · rw [if_pos hi]
            have hrov : f ≤ r ∧ (l + r) / 2 + 1 ≤ t := by
              by_contra hno
              exact hj (IHR.1 hno)
            have hlc1 : l ≤ (l + r) / 2 + 1 := by omega
            obtain ⟨l', r', hnode, hb1, hb2⟩ := IHR.2 hrov
            exact ⟨l', r', hnode,
              le_trans (max_le_max (Nat.le_refl f) hlc1) hb1, hb2⟩
          · rw [if_neg hi]
            have hlov : f ≤ (l + r) / 2 ∧ l ≤ t := by
              by_contra hno
              exact hi (IHL.1 hno)
            have hrov : f ≤ r ∧ (l + r) / 2 + 1 ≤ t := by
              by_contra hno
              exact hj (IHR.1 hno)
            have hcr : (l + r) / 2 ≤ r := by omega
            have hlc1 : l ≤ (l + r) / 2 + 1 := by omega
            obtain ⟨l1, r1, hnode1, ha1, ha2⟩ := IHL.2 hlov
            obtain ⟨l2, r2, hnode2, hb1, hb2⟩ := IHR.2 hrov
            by_cases hcmp : cmp
                (d.getD (get_value_sub cmp d f t (idx * 2) l ((l + r) / 2)) default)
                (d.getD (get_value_sub cmp d f t (idx * 2 + 1) ((l + r) / 2 + 1) r) default)
                ≤ 0
            · rw [if_pos hcmp]
              exact ⟨l1, r1, hnode1, ha1,
                le_trans ha2 (min_le_min (Nat.le_refl t) hcr)⟩
            · rw [if_neg hcmp]
              exact ⟨l2, r2, hnode2,
                le_trans (max_le_max (Nat.le_refl f) hlc1) hb1, hb2⟩

/-- Value computed by the query recursion on a well-formed node overlapping
the query, given a storage satisfying the tree invariant: the comparator-best
element over the intersection of the query `f..t` with the node's extent
(all bounds 1-based, the oracle 0-based). -/
theorem gvs_value {n m : Nat} (hn2 : IsPow2 n) {cmp : α → α → Int}
    (hc : TotalCmp cmp) (d elems : List α) (f t : Nat)
    (hCor : ∀ q lq rq, Node n q lq rq → lq ≤ m →
      d.getD q default = bruteBest cmp elems (lq - 1) (min rq m - 1))
    (hft : f ≤ t) (htm : t ≤ m) (hmn : m ≤ n) :
    ∀ w idx l r, r - l ≤ w → Node n idx l r → f ≤ r → l ≤ t →
      d.getD (get_value_sub cmp d f t idx l r) default =
        bruteBest cmp elems (max f l - 1) (min t r - 1) := by
  intro w
  induction w with
  | zero =>
    intro idx l r hw hn hfr hlt'
    have hspec := node_spec hn2 hn
    have hlr : l ≤ r := hspec.2.1
    rw [get_value_sub_eq cmp d f t idx l r hlr]
    rw [if_neg (by omega : ¬ (r < f ∨ t < l))]
    have hg2 : f ≤ l ∧ r ≤ t := by omega
    rw [if_pos hg2]
    rw [max_eq_right hg2.1, min_eq_right hg2.2,
      ← min_eq_left (le_trans hg2.2 htm)]
    exact hCor idx l r hn (by omega)
  | succ w ih =>
    intro idx l r hw hn hfr hlt'
    have hspec := node_spec hn2 hn
    have hlr : l ≤ r := hspec.2.1
    have hl1 : 1 ≤ l := hspec.1
    rw [get_value_sub_eq cmp d f t idx l r hlr]
    rw [if_neg (by omega : ¬ (r < f ∨ t < l))]
    by_cases hg2 : f ≤ l ∧ r ≤ t
    · rw [if_pos hg2]
      rw [max_eq_right hg2.1, min_eq_right hg2.2,
        ← min_eq_left (le_trans hg2.2 htm)]
      exact hCor idx l r hn (by omega)
    · rw [if_neg hg2]
      have hlt : l < r := by omega
      have hnl := Node.left hn hlt
      have hnr := Node.right hn hlt
      have hres := gvs_result hn2 cmp d f t hft
      have RL := hres w (idx * 2) l ((l + r) / 2) (by omega) hnl
      have RR := hres w (idx * 2 + 1) ((l + r) / 2 + 1) r (by omega) hnr
      by_cases hj : get_value_sub cmp d f t (idx * 2 + 1) ((l + r) / 2 + 1) r = 0
      · rw [if_pos hj]
        have hno_r : ¬ (f ≤ r ∧ (l + r) / 2 + 1 ≤ t) := by
          intro hov
          obtain ⟨l', r', hnode, _, _⟩ := RR.2 hov
          rw [hj] at hnode
          exact absurd (node_pos hn2 hnode) (Nat.not_succ_le_zero 0)
        have htc : t ≤ (l + r) / 2 := by
          rcases Nat.lt_or_ge ((l + r) / 2) t with h | h
          · exact absurd ⟨hfr, by omega⟩ hno_r
          · exact h
        have hval := ih (idx * 2) l ((l + r) / 2)
          (by clear hres RL RR; omega) hnl (by clear hres RL RR; omega) hlt'
        have h2 : min t ((l + r) / 2) = min t r := by
          rw [min_eq_left htc, min_eq_left (le_trans htc (by omega))]
        rw [hval, h2]
      · rw [if_neg hj]
        by_cases hi : get_value_sub cmp d f t (idx * 2) l ((l + r) / 2) = 0
        · rw [if_pos hi]
          have hnol : ¬ (f ≤ (l + r) / 2 ∧ l ≤ t) := by
            intro hov
            obtain ⟨l'', r'', hnode', _, _⟩ := RL.2 hov
            rw [hi] at hnode'
            exact absurd (node_pos hn2 hnode') (Nat.not_succ_le_zero 0)
          have hcf : (l + r) / 2 < f := by
            rcases Nat.lt_or_ge ((l + r) / 2) f with h | h
            · exact h
            · exact absurd ⟨h, hlt'⟩ hnol
          have hval := ih (idx * 2 + 1) ((l + r) / 2 + 1) r
            (by clear hres RL RR; omega) hnr hfr (by clear hres RL RR; omega)
          have h1 : max f ((l + r) / 2 + 1) = max f l := by
            rw [max_eq_left (by omega), max_eq_left (by omega)]
          rw [hval, h1]
        · rw [if_neg hi]
          have hlov : f ≤ (l + r) / 2 ∧ l ≤ t := by
            by_contra hno
            exact hi (RL.1 hno)
          have hrov : f ≤ r ∧ (l + r) / 2 + 1 ≤ t := by
            by_contra hno
            exact hj (RR.1 hno)
          have hvalL := ih (idx * 2) l ((l + r) / 2)
            (by clear hres RL RR; omega) hnl hlov.1 hlt'
          have hvalR := ih (idx * 2 + 1) ((l + r) / 2 + 1) r
            (by clear hres RL RR; omega) hnr hfr hrov.2
          have hL : d.getD (get_value_sub cmp d f t (idx * 2) l ((l + r) / 2))
              default = bruteBest cmp elems (max f l - 1) ((l + r) / 2 - 1) := by
            rw [hvalL, min_eq_right (by omega : (l + r) / 2 ≤ t)]
          have hR : d.getD
              (get_value_sub cmp d f t (idx * 2 + 1) ((l + r) / 2 + 1) r)
              default = bruteBest cmp elems ((l + r) / 2) (min t r - 1) := by
            rw [hvalR, max_eq_right (by omega : f ≤ (l + r) / 2 + 1)]
            have h2 : (l + r) / 2 + 1 - 1 = (l + r) / 2 := by omega
            rw [h2]
          have hsplit : bruteBest cmp elems (max f l - 1) (min t r - 1) =
              best cmp (bruteBest cmp elems (max f l - 1) ((l + r) / 2 - 1))
                (bruteBest cmp elems ((l + r) / 2) (min t r - 1)) :=
            bruteBest_split1 hc elems (le_trans hl1 (le_max_right f l))
              (max_le hlov.1 (by omega))
              (Nat.lt_of_succ_le (le_min hrov.2 (by omega)))
          by_cases hcmp : cmp
              (d.getD (get_value_sub cmp d f t (idx * 2) l ((l + r) / 2)) default)
              (d.getD (get_value_sub cmp d f t (idx * 2 + 1) ((l + r) / 2 + 1) r) default)
              ≤ 0
          · rw [if_pos hcmp, hsplit, ← hL, ← hR]
            simp only [best, if_pos hcmp]
          · rw [if_neg hcmp, hsplit, ← hL, ← hR]
            simp only [best, if_neg hcmp]

theorem updateLoop_zero (cmp : α → α → Int) (d : List α) (e : Nat) :
    updateLoop cmp d 0 e = d := rfl

theorem updateGo_length (cmp : α → α → Int) :
    ∀ fuel (d : List α) i e, (updateGo cmp fuel d i e).length = d.length := by
  intro fuel
  induction fuel with
  | zero => intro d i e; rfl
  | succ fuel ih =>
    intro d i e
    by_cases hi : i = 0
    · simp only [updateGo, if_pos hi]
    · simp only [updateGo, if_neg hi]
      rw [ih]
      exact List.length_set ..

theorem updateLoop_length (cmp : α → α → Int) (d : List α) (i e : Nat) :
    (updateLoop cmp d i e).length = d.length :=
  updateGo_length cmp i d i e

theorem div_two_pow_succ (x u : Nat) : x / 2 / 2 ^ u = x / 2 ^ (u + 1) := by
  rw [Nat.div_div_eq_div_mul]
  congr 1
  rw [pow_succ]
  ring

/-- The update loop writes only at the iterated halvings of its entry index
(the chain `i/2, i/4, ...`, which ends at 0): any other slot is unchanged. -/
theorem updateGo_frame (cmp : α → α → Int) :
    ∀ fuel (d : List α) i e p, (∀ u, 1 ≤ u → p ≠ i / 2 ^ u) →
      (updateGo cmp fuel d i e).getD p default = d.getD p default := by
  intro fuel
  induction fuel with
  | zero => intro d i e p _; rfl
  | succ fuel ih =>
    intro d i e p hp
    by_cases hi : i = 0
    · simp only [updateGo, if_pos hi]
    · simp only [updateGo, if_neg hi]
      rw [ih _ (i / 2) (e / 2) p]
      · refine getD_set_ne _ _ _ _ _ ?_
        have h1 := hp 1 (Nat.le_refl 1)
        rw [pow_one] at h1
        exact fun h => h1 h.symm
      · intro u hu
        rw [div_two_pow_succ]
        exact hp (u + 1) (by omega)

theorem updateLoop_frame (cmp : α → α → Int) (d : List α) (i e : Nat) :
    ∀ p, (∀ u, 1 ≤ u → p ≠ i / 2 ^ u) →
      (updateLoop cmp d i e).getD p default = d.getD p default := by
  intro p hp
  exact updateGo_frame cmp i d i e p hp

theorem mul_two_div_pow (i u : Nat) : i * 2 / 2 ^ (u + 1) = i / 2 ^ u := by
  have h1 : (2:Nat) ^ (u + 1) = 2 * 2 ^ u := by rw [pow_succ]; ring
  rw [h1, ← Nat.div_div_eq_div_mul]
  congr 1
  omega

theorem mul_two_add_one_div_pow (i u : Nat) :
    (i * 2 + 1) / 2 ^ (u + 1) = i / 2 ^ u := by
  have h1 : (2:Nat) ^ (u + 1) = 2 * 2 ^ u := by rw [pow_succ]; ring
  rw [h1, ← Nat.div_div_eq_div_mul]
  congr 1
  omega

theorem div_pow_two_succ (x u : Nat) : x / 2 ^ u / 2 = x / 2 ^ (u + 1) := by
  rw [Nat.div_div_eq_div_mul, pow_succ]

/-- One step of the update walk, across the whole remaining climb.  Walking
up from a node on the path above leaf `s` (1-based position `s+1`): if the
storage holds the right element in every leaf, and holds the invariant value
at every off-path node whose valid extent ends within the bound `B`, and at
the entry node itself (under the same bound), then after the walk every node
on the chain of iterated halvings with valid extent within `B` holds its
invariant value, and all slots off the chain are untouched. -/
theorem update_walk {m n : Nat} (hn2 : IsPow2 n) {cmp : α → α → Int}
    (hc : TotalCmp cmp) (elems : List α) (hm1 : 1 ≤ m) (hmn : m ≤ n)
    {s : Nat} (hs : s < m) (B : Nat) :
    ∀ {i l r : Nat}, Node n i l r →
    ∀ (j : Nat) (d : List α) (e : Nat),
      r + 1 - l = 2 ^ j →
      e = (m + n - 1) / 2 ^ j →
      l ≤ s + 1 → s + 1 ≤ r →
      d.length = m + n →
      (∀ p, p < m → d.getD (n + p) default = elems.getD p default) →
      (∀ q lq rq, Node n q lq rq → ¬ (lq ≤ s + 1 ∧ s + 1 ≤ rq) → lq ≤ m →
        min rq m ≤ B →
        d.getD q default = bruteBest cmp elems (lq - 1) (min rq m - 1)) →
      (min r m ≤ B →
        d.getD i default = bruteBest cmp elems (l - 1) (min r m - 1)) →
      (updateLoop cmp d i e).length = m + n ∧
      (∀ p, (∀ u, 1 ≤ u → p ≠ i / 2 ^ u) →
        (updateLoop cmp d i e).getD p default = d.getD p default) ∧
      (∀ u lq rq, Node n (i / 2 ^ u) lq rq → min rq m ≤ B →
        (updateLoop cmp d i e).getD (i / 2 ^ u) default =
          bruteBest cmp elems (lq - 1) (min rq m - 1)) := by
  intro i l r hnode
  induction hnode with
  | root =>
    intro j d e hw he hl hr hlen hleaf H2 H3
    have hnpos : 0 < n := isPow2_pos hn2
    have hn1 : n = 2 ^ j := by omega
    have he1 : e = 1 := by
      rw [he, ← hn1]
      exact Nat.div_eq_of_lt_le (by omega) (by rw [Nat.succ_mul]; omega)
    rw [updateLoop_eq, if_neg (by omega : ¬ (1:Nat) = 0), he1]
    simp only [show (1:Nat) / 2 = 0 by norm_num, Nat.zero_mul, Nat.zero_add,
      Nat.le_refl, true_and]
    rw [updateLoop_zero]
    refine ⟨?_, ?_, ?_⟩
    · rw [List.length_set]; exact hlen
    · intro p hp
      have hp1 := hp 1 (Nat.le_refl 1)
      rw [pow_one] at hp1
      rw [show (1:Nat) / 2 = 0 by norm_num] at hp1
      exact getD_set_ne _ _ _ _ _ (fun h => hp1 h.symm)
    · intro u lq rq hq hBq
      cases u with
      | zero =>
        rw [pow_zero, Nat.div_one] at hq ⊢
        obtain ⟨h1, h2⟩ := node_unique hn2 hq Node.root
        subst h1; subst h2
        rw [getD_set_ne _ _ _ _ _ (by omega : (0:Nat) ≠ 1)]
        exact H3 hBq
      | succ u =>
        exfalso
        have h2u : (2:Nat) ≤ 2 ^ (u + 1) := by
          calc (2:Nat) = 2 ^ 1 := (pow_one 2).symm
          _ ≤ 2 ^ (u + 1) := Nat.pow_le_pow_right (by omega) (by omega)
        have hz : 1 / 2 ^ (u + 1) = 0 := Nat.div_eq_of_lt (by omega)
        rw [hz] at hq
        exact absurd (node_pos hn2 hq) (Nat.not_succ_le_zero 0)
  | @left i l r hpar hlt ih =>
    intro j d e hw he hl hr hlen hleaf H2 H3
    have hnpos : 0 < n := isPow2_pos hn2
    have h2j : 0 < (2:Nat) ^ j := pow_pos (by omega) j
    obtain ⟨hl1, hlr, hrn, jp, hwp, hip⟩ := node_spec hn2 hpar
    obtain ⟨jq, rfl⟩ : ∃ jq, jp = jq + 1 := by
      cases jp with
      | zero => exfalso; rw [pow_zero] at hwp; omega
      | succ jq => exact ⟨jq, rfl⟩
    have h2jq : 0 < (2:Nat) ^ jq := pow_pos (by omega) jq
    rw [show (2:Nat) ^ (jq + 1) = 2 * 2 ^ jq by rw [pow_succ]; ring] at hwp
    have hq2 : (2:Nat) ^ jq = 2 ^ j := by omega
    have hip' : i * 2 * 2 ^ j = n + l - 1 := by
      have h1 : i * 2 * 2 ^ jq = i * 2 ^ (jq + 1) := by rw [pow_succ]; ring
      rw [← hq2, h1]
      exact hip
    have hwp' : r + 1 - l = 2 * 2 ^ j := by rw [← hq2]; exact hwp
    have hile : i * 2 ≤ i * 2 * 2 ^ j := Nat.le_mul_of_pos_right (i * 2) h2j
    have hipos : 1 ≤ i := node_pos hn2 hpar
    have hiltn : i < n := by omega
    have hilen : i < d.length := by omega
    have hi2 : i * 2 / 2 = i := by omega
    have hcl : l ≤ (l + r) / 2 := by omega
    have hcr : (l + r) / 2 < r := by omega
    have hcw : (l + r) / 2 + 1 - l = 2 ^ j := by omega
    have hsr : s + 1 ≤ r := by omega
    have hsib := Node.right hpar hlt
    have hknode : (i * 2 + 1) * 2 ^ j = n + (l + r) / 2 := by
      have h1 : (i * 2 + 1) * 2 ^ j = i * 2 * 2 ^ j + 2 ^ j := by ring
      omega
    have hke : (i * 2 + 1 ≤ e) ↔ ((l + r) / 2 + 1 ≤ m) := by
      rw [he, Nat.le_div_iff_mul_le h2j]
      omega
    have hfr2 : ∀ u', 1 ≤ u' → i * 2 ≠ i / 2 ^ u' := by
      intro u' hu'
      have := Nat.div_le_self i (2 ^ u')
      omega
    have hii2 : i ≠ i * 2 := by omega
    have hc11 : (l + r) / 2 + 1 - 1 = (l + r) / 2 := by omega
    have hnc : ¬ ((l + r) / 2 + 1 ≤ s + 1 ∧ s + 1 ≤ r) :=
      fun hcon => absurd hcon.1 (by omega)
    rw [updateLoop_eq, if_neg (by omega : ¬ i * 2 = 0), hi2]
    set d' := d.set i (d.getD
      (if i * 2 + 1 ≤ e ∧
          0 < cmp (d.getD (i * 2) default) (d.getD (i * 2 + 1) default)
       then i * 2 + 1 else i * 2) default) with hd'
    have hparH3 : min r m ≤ B →
        d'.getD i default = bruteBest cmp elems (l - 1) (min r m - 1) := by
      intro hB
      rw [hd', getD_set_self _ _ _ _ hilen]
      by_cases hkm : (l + r) / 2 + 1 ≤ m
      · have hkle : i * 2 + 1 ≤ e := hke.mpr hkm
        have hBc : min ((l + r) / 2) m ≤ B :=
          le_trans (min_le_min (le_of_lt hcr) (Nat.le_refl m)) hB
        have hvL : d.getD (i * 2) default =
            bruteBest cmp elems (l - 1) ((l + r) / 2 - 1) := by
          have h := H3 hBc
          rwa [min_eq_left (by omega : (l + r) / 2 ≤ m)] at h
        have hvR : d.getD (i * 2 + 1) default =
            bruteBest cmp elems ((l + r) / 2) (min r m - 1) := by
          have h := H2 (i * 2 + 1) ((l + r) / 2 + 1) r hsib hnc (by omega) hB
          rwa [hc11] at h
        have hsplit := bruteBest_split1 hc elems (b := (l + r) / 2)
          (c := min r m) hl1 hcl
          (Nat.lt_of_succ_le (le_min (by omega) hkm))
        rw [hsplit, ← hvL, ← hvR]
        by_cases hcmp : cmp (d.getD (i * 2) default) (d.getD (i * 2 + 1) default) ≤ 0
        · rw [if_neg (fun hcon => absurd hcon.2 (not_lt.mpr hcmp))]
          simp only [best, if_pos hcmp]
        · rw [if_pos ⟨hkle, not_le.mp hcmp⟩]
          simp only [best, if_neg hcmp]
      · have hnkle : ¬ (i * 2 + 1 ≤ e) := fun hcon => hkm (hke.mp hcon)
        rw [if_neg (fun hcon => hnkle hcon.1)]
        have hmc : m ≤ (l + r) / 2 := by omega
        have hmr : m ≤ r := by omega
        have hBc : min ((l + r) / 2) m ≤ B := by
          rw [min_eq_right hmc, ← min_eq_right hmr]
          exact hB
        have h := H3 hBc
        rw [min_eq_right hmc] at h
        rw [min_eq_right hmr]
        exact h
    have hstep := ih (j + 1) d' (e / 2)
      (by rw [pow_succ]; omega)
      (by rw [he, div_pow_two_succ])
      hl hsr
      (by rw [hd', List.length_set]; exact hlen)
      (by
        intro p hp
        rw [hd', getD_set_ne _ _ _ _ _ (by omega : i ≠ n + p)]
        exact hleaf p hp)
      (by
        intro q lq rq hq hncq hlqm hBq
        rw [hd']
        rw [getD_set_ne _ _ _ _ _ ?_]
        · exact H2 q lq rq hq hncq hlqm hBq
        · intro hiq
          rw [← hiq] at hq
          obtain ⟨h1, h2⟩ := node_unique hn2 hq hpar
          subst h1; subst h2
          exact hncq ⟨hl, hsr⟩)
      hparH3
    refine ⟨hstep.1, ?_, ?_⟩
    · intro p hp
      have hpi : p ≠ i := by
        have h := hp 1 (Nat.le_refl 1)
        rwa [pow_one, hi2] at h
      have hpc : ∀ u, 1 ≤ u → p ≠ i / 2 ^ u := by
        intro u hu
        have h := hp (u + 1) (by omega)
        rwa [mul_two_div_pow] at h
      rw [hstep.2.1 p hpc, hd',
        getD_set_ne _ _ _ _ _ (fun h => hpi h.symm)]
    · intro u lq rq hq hBq
      cases u with
      | zero =>
        rw [pow_zero, Nat.div_one] at hq ⊢
        obtain ⟨h1, h2⟩ := node_unique hn2 hq (Node.left hpar hlt)
        subst h1; subst h2
        rw [hstep.2.1 (i * 2) hfr2, hd', getD_set_ne _ _ _ _ _ hii2]
        exact H3 hBq
      | succ u =>
        rw [mul_two_div_pow] at hq ⊢
        exact hstep.2.2 u lq rq hq hBq
  | @right i l r hpar hlt ih =>
    intro j d e hw he hl hr hlen hleaf H2 H3
    have hnpos : 0 < n := isPow2_pos hn2
    have h2j : 0 < (2:Nat) ^ j := pow_pos (by omega) j
    obtain ⟨hl1, hlr, hrn, jp, hwp, hip⟩ := node_spec hn2 hpar
    obtain ⟨jq, rfl⟩ : ∃ jq, jp = jq + 1 := by
      cases jp with
      | zero => exfalso; rw [pow_zero] at hwp; omega
      | succ jq => exact ⟨jq, rfl⟩
    have h2jq : 0 < (2:Nat) ^ jq := pow_pos (by omega) jq
    rw [show (2:Nat) ^ (jq + 1) = 2 * 2 ^ jq by rw [pow_succ]; ring] at hwp
    have hq2 : (2:Nat) ^ jq = 2 ^ j := by omega
    have hip' : i * 2 * 2 ^ j = n + l - 1 := by
      have h1 : i * 2 * 2 ^ jq = i * 2 ^ (jq + 1) := by rw [pow_succ]; ring
      rw [← hq2, h1]
      exact hip
    have hwp' : r + 1 - l = 2 * 2 ^ j := by rw [← hq2]; exact hwp
    have hile : i * 2 ≤ i * 2 * 2 ^ j := Nat.le_mul_of_pos_right (i * 2) h2j
    have hipos : 1 ≤ i := node_pos hn2 hpar
    have hiltn : i < n := by omega
    have hilen : i < d.length := by omega
    have hi2 : (i * 2 + 1) / 2 = i := by omega
    have hcl : l ≤ (l + r) / 2 := by omega
    have hcr : (l + r) / 2 < r := by omega
    have hcw : (l + r) / 2 + 1 - l = 2 ^ j := by omega
    have hcs : (l + r) / 2 ≤ s := by omega
    have hsl : l ≤ s + 1 := by omega
    have hknode : (i * 2 + 1) * 2 ^ j = n + (l + r) / 2 := by
      have h1 : (i * 2 + 1) * 2 ^ j = i * 2 * 2 ^ j + 2 ^ j := by ring
      omega
    have hkle : i * 2 + 1 ≤ e := by
      rw [he, Nat.le_div_iff_mul_le h2j]
      omega
    have hfr2 : ∀ u', 1 ≤ u' → i * 2 + 1 ≠ i / 2 ^ u' := by
      intro u' hu'
      have := Nat.div_le_self i (2 ^ u')
      omega
    have hii2 : i ≠ i * 2 + 1 := by omega
    have hc11 : (l + r) / 2 + 1 - 1 = (l + r) / 2 := by omega
    have hncl : ¬ (l ≤ s + 1 ∧ s + 1 ≤ (l + r) / 2) :=
      fun hcon => absurd hcon.2 (by omega)
    have hclm : (l + r) / 2 < m := by omega
    have hsibl := Node.left hpar hlt
    rw [updateLoop_eq, if_neg (by omega : ¬ i * 2 + 1 = 0), hi2]
    set d' := d.set i (d.getD
      (if i * 2 + 1 ≤ e ∧
          0 < cmp (d.getD (i * 2) default) (d.getD (i * 2 + 1) default)
       then i * 2 + 1 else i * 2) default) with hd'
    have hparH3 : min r m ≤ B →
        d'.getD i default = bruteBest cmp elems (l - 1) (min r m - 1) := by
      intro hB
      rw [hd', getD_set_self _ _ _ _ hilen]
      have hBc : min ((l + r) / 2) m ≤ B :=
        le_trans (min_le_min (le_of_lt hcr) (Nat.le_refl m)) hB
      have hvL : d.getD (i * 2) default =
          bruteBest cmp elems (l - 1) ((l + r) / 2 - 1) := by
        have h := H2 (i * 2) l ((l + r) / 2) hsibl hncl (by omega) hBc
        rwa [min_eq_left (le_of_lt hclm)] at h
      have hvR : d.getD (i * 2 + 1) default =
          bruteBest cmp elems ((l + r) / 2) (min r m - 1) := by
        have h := H3 hB
        rwa [hc11] at h
      have hsplit := bruteBest_split1 hc elems (b := (l + r) / 2)
        (c := min r m) hl1 hcl
        (Nat.lt_of_succ_le (le_min (by omega) (by omega)))
      rw [hsplit, ← hvL, ← hvR]
      by_cases hcmp : cmp (d.getD (i * 2) default) (d.getD (i * 2 + 1) default) ≤ 0
      · rw [if_neg (fun hcon => absurd hcon.2 (not_lt.mpr hcmp))]
        simp only [best, if_pos hcmp]
      · rw [if_pos ⟨hkle, not_le.mp hcmp⟩]
        simp only [best, if_neg hcmp]
    have hstep := ih (j + 1) d' (e / 2)
      (by rw [pow_succ]; omega)
      (by rw [he, div_pow_two_succ])
      hsl hr
      (by rw [hd', List.length_set]; exact hlen)
      (by
        intro p hp
        rw [hd', getD_set_ne _ _ _ _ _ (by omega : i ≠ n + p)]
        exact hleaf p hp)
      (by
        intro q lq rq hq hncq hlqm hBq
        rw [hd']
        rw [getD_set_ne _ _ _ _ _ ?_]
        · exact H2 q lq rq hq hncq hlqm hBq
        · intro hiq
          rw [← hiq] at hq
          obtain ⟨h1, h2⟩ := node_unique hn2 hq hpar
          subst h1; subst h2
          exact hncq ⟨hsl, hr⟩)
      hparH3
    refine ⟨hstep.1, ?_, ?_⟩
    · intro p hp
      have hpi : p ≠ i := by
        have h := hp 1 (Nat.le_refl 1)
        rwa [pow_one, hi2] at h
      have hpc : ∀ u, 1 ≤ u → p ≠ i / 2 ^ u := by
        intro u hu
        have h := hp (u + 1) (by omega)
        rwa [mul_two_add_one_div_pow] at h
      rw [hstep.2.1 p hpc, hd',
        getD_set_ne _ _ _ _ _ (fun h => hpi h.symm)]
    · intro u lq rq hq hBq
      cases u with
      | zero =>
        rw [pow_zero, Nat.div_one] at hq ⊢
        obtain ⟨h1, h2⟩ := node_unique hn2 hq (Node.right hpar hlt)
        subst h1; subst h2
        rw [hstep.2.1 (i * 2 + 1) hfr2, hd', getD_set_ne _ _ _ _ _ hii2]
        exact H3 hBq
      | succ u =>
        rw [mul_two_add_one_div_pow] at hq ⊢
        exact hstep.2.2 u lq rq hq hBq

theorem prepLeaves_succ (input : List α) (n : Nat) (d0 : List α) (mm : Nat) :
    prepLeaves input n d0 (mm + 1) =
      set_leaf_simply n (prepLeaves input n d0 mm) mm (input.getD mm default) := by
  simp only [prepLeaves]
  rw [List.range_succ, List.foldl_append]
  rfl

theorem prepSteps_succ (cmp : α → α → Int) (m n : Nat) (d1 : List α) (T : Nat) :
    prepSteps cmp m n d1 (T + 1) =
      update cmp m n (prepSteps cmp m n d1 T) (2 * T) := by
  simp only [prepSteps]
  rw [List.range_succ, List.map_append, List.foldl_append]
  rfl

/-- After the leaf-writing loop of `prepare`: leaves hold the input, nothing
else moved, and the length is unchanged. -/
theorem prepLeaves_spec (input : List α) (n : Nat) :
    ∀ (mm : Nat) (d0 : List α), n + mm ≤ d0.length →
      (prepLeaves input n d0 mm).length = d0.length ∧
      (∀ p, p < mm →
        (prepLeaves input n d0 mm).getD (n + p) default = input.getD p default) ∧
      (∀ q, (∀ p, p < mm → q ≠ n + p) →
        (prepLeaves input n d0 mm).getD q default = d0.getD q default) := by
  intro mm
  induction mm with
  | zero =>
    intro d0 h
    refine ⟨rfl, ?_, ?_⟩
    · intro p hp; omega
    · intro q _; rfl
  | succ mm ih =>
    intro d0 h
    obtain ⟨ihlen, ihleaf, ihfr⟩ := ih d0 (by omega)
    rw [prepLeaves_succ]
    refine ⟨?_, ?_, ?_⟩
    · rw [set_leaf_simply, List.length_set]; exact ihlen
    · intro p hp
      rcases Nat.lt_or_ge p mm with h1 | h1
      · rw [set_leaf_simply, getD_set_ne _ _ _ _ _ (by omega : n + mm ≠ n + p)]
        exact ihleaf p h1
      · have hp' : p = mm := by omega
        subst hp'
        rw [set_leaf_simply, getD_set_self _ _ _ _ (by rw [ihlen]; omega)]
    · intro q hq
      rw [set_leaf_simply,
        getD_set_ne _ _ _ _ _ (fun hh => hq mm (by omega) hh.symm)]
      exact ihfr q (fun p hp => hq p (by omega))

/-- An internal node starts at an odd 1-based leaf position: its width is an
even power of two, and `n` is even whenever internal nodes exist. -/
theorem internal_left_odd {n : Nat} (hn2 : IsPow2 n) {q lq rq : Nat}
    (hq : Node n q lq rq) (hlt : lq < rq) : ∃ a, lq = 2 * a + 1 := by
  obtain ⟨h1, h2, h3, jw, hww, hqq⟩ := node_spec hn2 hq
  obtain ⟨jv, rfl⟩ : ∃ jv, jw = jv + 1 := by
    cases jw with
    | zero => exfalso; rw [pow_zero] at hww; omega
    | succ jv => exact ⟨jv, rfl⟩
  have hev : 2 ∣ q * 2 ^ (jv + 1) :=
    Dvd.dvd.mul_left (dvd_pow_self 2 (by omega)) q
  have hn2' : 2 ≤ n := by
    have h2w : 2 ≤ 2 ^ (jv + 1) := by
      calc (2:Nat) = 2 ^ 1 := (pow_one 2).symm
      _ ≤ 2 ^ (jv + 1) := Nat.pow_le_pow_right (by omega) (by omega)
    omega
  have hnev : 2 ∣ n := by
    obtain ⟨D, hD⟩ := hn2
    obtain ⟨Dv, rfl⟩ : ∃ Dv, D = Dv + 1 := by
      cases D with
      | zero => exfalso; rw [pow_zero] at hD; omega
      | succ Dv => exact ⟨Dv, rfl⟩
    rw [hD]
    exact dvd_pow_self 2 (by omega)
  obtain ⟨a, ha⟩ := hev
  obtain ⟨b, hb⟩ := hnev
  exact ⟨a - b, by omega⟩

/-- After the tree has been rebuilt below leaf extent `2T+1` (0-based `2T`),
every node that misses the leaf position `2T+1` and whose valid extent ends
by `2(T+1)` already holds its invariant value: leaves hold input directly,
left-of-extent internal nodes fall under the bound `2T`, and an internal
node starting right of `2T+1` would start at an odd position `≥ 2T+3`. -/
theorem off_node_correct {m n : Nat} (hn2 : IsPow2 n) (cmp : α → α → Int)
    (elems d : List α) {T : Nat} (hTm : 2 * T < m) (hm1 : 1 ≤ m)
    (hleaf : ∀ p, p < m → d.getD (n + p) default = elems.getD p default)
    (hinv : ∀ q lq rq, Node n q lq rq → lq ≤ m → min rq m ≤ 2 * T →
      d.getD q default = bruteBest cmp elems (lq - 1) (min rq m - 1)) :
    ∀ q lq rq, Node n q lq rq → ¬ (lq ≤ 2 * T + 1 ∧ 2 * T + 1 ≤ rq) → lq ≤ m →
      min rq m ≤ 2 * (T + 1) →
      d.getD q default = bruteBest cmp elems (lq - 1) (min rq m - 1) := by
  intro q lq rq hq hnc hlqm hBq
  obtain ⟨h1, h2, h3, jw, hww, hqq⟩ := node_spec hn2 hq
  rcases Nat.lt_or_ge lq rq with hlt | hge
  · rcases Nat.lt_or_ge rq (2 * T + 1) with hcase | hcase
    · exact hinv q lq rq hq hlqm
        (le_trans (min_le_left rq m) (by clear hBq; omega))
    · have hlq : 2 * T + 1 < lq := by clear hBq; omega
      obtain ⟨a, ha⟩ := internal_left_odd hn2 hq hlt
      have hlq3 : 2 * (T + 1) < lq := by clear hBq; omega
      exact absurd (le_trans (le_min h2 hlqm) hBq) (not_le.mpr hlq3)
  · have heq : lq = rq := by clear hBq; omega
    subst heq
    have hjw : jw = 0 := by
      cases jw with
      | zero => rfl
      | succ jv =>
        exfalso
        have h2w : 2 ≤ 2 ^ (jv + 1) := by
          calc (2:Nat) = 2 ^ 1 := (pow_one 2).symm
          _ ≤ 2 ^ (jv + 1) := Nat.pow_le_pow_right (by omega) (by omega)
        clear hBq
        omega
    subst hjw
    rw [pow_zero, Nat.mul_one] at hqq
    have hq' : q = n + (lq - 1) := by clear hBq; omega
    rw [hq', hleaf (lq - 1) (by clear hBq; omega), min_eq_left hlqm,
      bruteBest_self]

/-- Combining the walk's conclusions into full node coverage: every node
containing leaf position `s+1` lies on the halving chain from tree index
`n + s` (so the walk's chain conclusion applies), and every other node is
untouched by the walk (so the off-path hypothesis applies). -/
theorem chain_cover {m n s : Nat} (hn2 : IsPow2 n) (cmp : α → α → Int)
    (elems : List α) (hsn : s < n) (d res : List α) (B : Nat)
    (hframe : ∀ p, (∀ u, 1 ≤ u → p ≠ (n + s) / 2 ^ u) →
      res.getD p default = d.getD p default)
    (hanc : ∀ u lq rq, Node n ((n + s) / 2 ^ u) lq rq → min rq m ≤ B →
      res.getD ((n + s) / 2 ^ u) default =
        bruteBest cmp elems (lq - 1) (min rq m - 1))
    (hoff : ∀ q lq rq, Node n q lq rq → ¬ (lq ≤ s + 1 ∧ s + 1 ≤ rq) → lq ≤ m →
      min rq m ≤ B → d.getD q default = bruteBest cmp elems (lq - 1) (min rq m - 1)) :
    ∀ q lq rq, Node n q lq rq → lq ≤ m → min rq m ≤ B →
      res.getD q default = bruteBest cmp elems (lq - 1) (min rq m - 1) := by
  intro q lq rq hq hlqm hBq
  by_cases hcont : lq ≤ s + 1 ∧ s + 1 ≤ rq
  · obtain ⟨h1, h2, h3, jw, hww, hqq⟩ := node_spec hn2 hq
    have hdiv := node_div hn2 hq hcont.1 hcont.2
    rw [show n + (s + 1) - 1 = n + s by clear hBq; omega, hww] at hdiv
    rw [← hdiv] at hq ⊢
    exact hanc jw lq rq hq hBq
  · rw [hframe q ?_]
    · exact hoff q lq rq hq hcont hlqm hBq
    · intro u hu hqu
      exact hcont (node_chain hn2 hq hsn hqu)

/-- The invariant established by the internal-node loop of `prepare`: after
the first `T` even-index updates, every node whose valid extent ends within
leaf position `2T` holds its invariant value (and leaves and length are
intact). -/
theorem prepSteps_inv {m n : Nat} (hn2 : IsPow2 n) {cmp : α → α → Int}
    (hc : TotalCmp cmp) (elems d1 : List α) (hm1 : 1 ≤ m) (hmn : m ≤ n)
    (hlen1 : d1.length = m + n)
    (hleaf1 : ∀ p, p < m → d1.getD (n + p) default = elems.getD p default) :
    ∀ T, 2 * T ≤ m + 1 →
      (prepSteps cmp m n d1 T).length = m + n ∧
      (∀ p, p < m →
        (prepSteps cmp m n d1 T).getD (n + p) default = elems.getD p default) ∧
      (∀ q lq rq, Node n q lq rq → lq ≤ m → min rq m ≤ 2 * T →
        (prepSteps cmp m n d1 T).getD q default =
          bruteBest cmp elems (lq - 1) (min rq m - 1)) := by
  intro T
  induction T with
  | zero =>
    intro _
    refine ⟨hlen1, hleaf1, ?_⟩
    intro q lq rq hq hlqm hBq
    exfalso
    obtain ⟨h1, h2, h3, _, _, _⟩ := node_spec hn2 hq
    have hone : 1 ≤ min rq m := le_min (le_trans h1 h2) hm1
    exact absurd (le_trans hone hBq) (by norm_num)
  | succ T ihT =>
    intro hT1
    obtain ⟨ihlen, ihleaf, ihinv⟩ := ihT (by omega)
    have hsm : 2 * T < m := by omega
    have hsn : 2 * T < n := by omega
    have h21m : 2 * T + 1 ≤ m := by omega
    have h211 : 2 * T + 1 - 1 = 2 * T := by omega
    have hleafnode := node_leaf hn2 (2 * T) hsn
    have hH2 := off_node_correct hn2 cmp elems (prepSteps cmp m n d1 T)
      hsm hm1 ihleaf ihinv
    have hH3 : min (2 * T + 1) m ≤ 2 * (T + 1) →
        (prepSteps cmp m n d1 T).getD (n + 2 * T) default =
          bruteBest cmp elems (2 * T + 1 - 1) (min (2 * T + 1) m - 1) := by
      intro _
      rw [min_eq_left h21m, h211, bruteBest_self]
      exact ihleaf (2 * T) hsm
    have hwalk := update_walk hn2 hc elems hm1 hmn hsm (2 * (T + 1))
      hleafnode 0 (prepSteps cmp m n d1 T) (m + n - 1)
      (by rw [pow_zero]; omega)
      (by rw [pow_zero, Nat.div_one])
      (Nat.le_refl _) (Nat.le_refl _)
      ihlen ihleaf hH2 hH3
    rw [prepSteps_succ]
    have hupd : update cmp m n (prepSteps cmp m n d1 T) (2 * T) =
        updateLoop cmp (prepSteps cmp m n d1 T) (n + 2 * T) (m + n - 1) := by
      simp only [update]
      rw [Nat.add_comm]
    rw [hupd]
    refine ⟨hwalk.1, ?_, ?_⟩
    · intro p hp
      rw [hwalk.2.1 (n + p) ?_]
      · exact ihleaf p hp
      · intro u hu
        have h2u : (2:Nat) ≤ 2 ^ u := by
          calc (2:Nat) = 2 ^ 1 := (pow_one 2).symm
          _ ≤ 2 ^ u := Nat.pow_le_pow_right (by omega) (by omega)
        have hd1 : (n + 2 * T) / 2 ^ u ≤ (n + 2 * T) / 2 :=
          Nat.div_le_div_left h2u (by omega)
        have hd2 : (n + 2 * T) / 2 < n := by omega
        omega
    · exact chain_cover hn2 cmp elems hsn _ _ (2 * (T + 1))
        hwalk.2.1 hwalk.2.2 hH2

/-- `prepare` on a nonempty input establishes the sizing facts and the full
tree invariant. -/
theorem prepare_props (input : List α) (cmp : α → α → Int) (hc : TotalCmp cmp)
    (hne : input ≠ []) :
    (prepare input cmp).m_ = input.length ∧
    (prepare input cmp).n_ = pow2ge input.length ∧
    (prepare input cmp).data_.length = input.length + pow2ge input.length ∧
    Correct (prepare input cmp) input := by
  have hm1 : 1 ≤ input.length := List.length_pos.mpr hne
  have hmn : input.length ≤ pow2ge input.length := pow2ge_ge _
  have hn2 : IsPow2 (pow2ge input.length) := pow2ge_isPow2 _
  have h0len : (List.replicate (input.length + pow2ge input.length)
      (default : α)).length = input.length + pow2ge input.length := by
    simp
  obtain ⟨h1len, h1leaf, _⟩ := prepLeaves_spec input (pow2ge input.length)
    input.length (List.replicate (input.length + pow2ge input.length) default)
    (by rw [h0len]; omega)
  have hbuild := prepSteps_inv hn2 hc input
    (prepLeaves input (pow2ge input.length)
      (List.replicate (input.length + pow2ge input.length) default)
      input.length)
    hm1 hmn (h1len.trans h0len) h1leaf ((input.length + 1) / 2) (by omega)
  refine ⟨rfl, rfl, hbuild.1, ?_⟩
  intro q lq rq hq hlqm
  have hcov : min rq input.length ≤ 2 * ((input.length + 1) / 2) :=
    le_trans (min_le_right _ _) (by omega)
  exact hbuild.2.2 q lq rq hq hlqm hcov

/-- Writing outside the scanned range does not change the oracle's value. -/
theorem bruteBest_set_ne (cmp : α → α → Int) (elems : List α) (i : Nat) (v : α)
    {a b : Nat} (hab : a ≤ b) (hout : i < a ∨ b < i) :
    bruteBest cmp (elems.set i v) a b = bruteBest cmp elems a b :=
  bruteBest_congr cmp a b hab
    (fun p hp1 hp2 => getD_set_ne _ _ _ _ _ (by omega))

/-- The tree invariant specialised at a leaf: leaf slots hold the logical
sequence. -/
theorem correct_leaf {m n : Nat} (hn2 : IsPow2 n) {cmp : α → α → Int}
    {d elems : List α}
    (hcor : ∀ q lq rq, Node n q lq rq → lq ≤ m →
      d.getD q default = bruteBest cmp elems (lq - 1) (min rq m - 1))
    {p : Nat} (hp : p < m) (hmn : m ≤ n) :
    d.getD (n + p) default = elems.getD p default := by
  have h := hcor (n + p) (p + 1) (p + 1) (node_leaf hn2 p (by omega)) (by omega)
  rwa [min_eq_left (by omega : p + 1 ≤ m), show p + 1 - 1 = p by omega,
    bruteBest_self] at h

theorem prepSteps_length (cmp : α → α → Int) (m n : Nat) (d1 : List α) :
    ∀ T, (prepSteps cmp m n d1 T).length = d1.length := by
  intro T
  induction T with
  | zero => rfl
  | succ T ih =>
    rw [prepSteps_succ]
    simp only [update]
    rw [updateLoop_length]
    exact ih

/-- A valid `set_leaf` preserves the storage length and re-establishes the
tree invariant against the updated logical sequence. -/
theorem set_leaf_correct {m n : Nat} (hn2 : IsPow2 n) {cmp : α → α → Int}
    (hc : TotalCmp cmp) {d elems : List α}
    (hm1 : 1 ≤ m) (hmn : m ≤ n) (hmel : m = elems.length)
    (hdlen : d.length = m + n)
    (hcor : ∀ q lq rq, Node n q lq rq → lq ≤ m →
      d.getD q default = bruteBest cmp elems (lq - 1) (min rq m - 1))
    {i : Nat} (hi : i < m) (v : α) :
    (update cmp m n (d.set (n + i) v) i).length = m + n ∧
    (∀ q lq rq, Node n q lq rq → lq ≤ m →
      (update cmp m n (d.set (n + i) v) i).getD q default =
        bruteBest cmp (elems.set i v) (lq - 1) (min rq m - 1)) := by
  have hin : i < n := by omega
  have hlfnode := node_leaf hn2 i hin
  have hnid : n + i < d.length := by omega
  have hiel : i < elems.length := by omega
  have hi1m : i + 1 ≤ m := by omega
  have hi11 : i + 1 - 1 = i := by omega
  set d2 := d.set (n + i) v with hd2
  have hleaf2 : ∀ p, p < m →
      d2.getD (n + p) default = (elems.set i v).getD p default := by
    intro p hp
    by_cases hpi : p = i
    · subst hpi
      rw [hd2, getD_set_self _ _ _ _ hnid, getD_set_self _ _ _ _ hiel]
    · rw [hd2, getD_set_ne _ _ _ _ _ (by omega : n + i ≠ n + p),
        getD_set_ne _ _ _ _ _ (fun h => hpi h.symm)]
      exact correct_leaf hn2 hcor hp hmn
  have hH2 : ∀ q lq rq, Node n q lq rq → ¬ (lq ≤ i + 1 ∧ i + 1 ≤ rq) → lq ≤ m →
      min rq m ≤ m →
      d2.getD q default = bruteBest cmp (elems.set i v) (lq - 1) (min rq m - 1) := by
    intro q lq rq hq hnc hlqm hBtriv
    clear hBtriv
    obtain ⟨h1, h2, h3, jw, hww, hqq⟩ := node_spec hn2 hq
    have hqne : q ≠ n + i := by
      intro hh
      rw [hh] at hq
      obtain ⟨e1, e2⟩ := node_unique hn2 hq hlfnode
      exact hnc ⟨by omega, by omega⟩
    rw [hd2, getD_set_ne _ _ _ _ _ (fun h => hqne h.symm),
      hcor q lq rq hq hlqm]
    refine (bruteBest_set_ne cmp elems i v
      (Nat.sub_le_sub_right (le_min h2 hlqm) 1) ?_).symm
    rcases Nat.lt_or_ge (i + 1) lq with hcase | hcase
    · left; omega
    · right
      have hrq : rq < i + 1 := by
        by_contra hh
        push_neg at hh
        exact hnc ⟨hcase, hh⟩
      have h5 : min rq m ≤ rq := min_le_left _ _
      have h6 : 1 ≤ rq := le_trans h1 h2
      omega
  have hH3 : min (i + 1) m ≤ m →
      d2.getD (n + i) default =
        bruteBest cmp (elems.set i v) (i + 1 - 1) (min (i + 1) m - 1) :=
    fun _ => by
      rw [hd2, getD_set_self _ _ _ _ hnid, min_eq_left hi1m, hi11,
        bruteBest_self, getD_set_self _ _ _ _ hiel]
  have hwalk := update_walk hn2 hc (elems.set i v) hm1 hmn hi m hlfnode 0 d2
    (m + n - 1)
    (by rw [pow_zero]; omega)
    (by rw [pow_zero, Nat.div_one])
    (Nat.le_refl _) (Nat.le_refl _)
    (by rw [hd2, List.length_set]; exact hdlen)
    hleaf2 hH2 hH3
  have hupd : update cmp m n d2 i = updateLoop cmp d2 (n + i) (m + n - 1) := by
    simp only [update]
    rw [Nat.add_comm]
  constructor
  · rw [hupd]; exact hwalk.1
  · intro q lq rq hq hlqm
    rw [hupd]
    exact chain_cover hn2 cmp (elems.set i v) hin d2 _ m
      hwalk.2.1 hwalk.2.2 hH2 q lq rq hq hlqm (min_le_right _ _)

/-- Structural facts shared by every Ready tree. -/
theorem reachable_props {t : Tree α} {elems : List α} (h : Reachable t elems) :
    t.m_ = elems.length ∧ t.n_ = pow2ge t.m_ ∧ 1 ≤ t.m_ ∧ t.m_ ≤ t.n_ ∧
    IsPow2 t.n_ ∧ t.data_.length = t.m_ + t.n_ := by
  induction h with
  | prep input cmp hne =>
    have hm1 : 1 ≤ input.length := List.length_pos.mpr hne
    refine ⟨rfl, rfl, hm1, pow2ge_ge _, pow2ge_isPow2 _, ?_⟩
    show (prepSteps cmp input.length (pow2ge input.length) _ _).length = _
    rw [prepSteps_length]
    rw [(prepLeaves_spec input (pow2ge input.length) input.length _
      (by simp; omega)).1]
    simp only [List.length_replicate]
    rfl
  | step i v hr hi ih =>
    obtain ⟨e1, e2, e3, e4, e5, e6⟩ := ih
    refine ⟨by simp [set_leaf, List.length_set, e1], e2, e3, e4, e5, ?_⟩
    show (update _ _ _ _ _).length = _
    simp only [update]
    rw [updateLoop_length, set_leaf_simply, List.length_set]
    exact e6

/-- Every Ready tree with a total consistent comparator satisfies the full
tree invariant with respect to its logical element sequence. -/
theorem reachable_correct {t : Tree α} {elems : List α}
    (h : Reachable t elems) : TotalCmp t.compare_ → Correct t elems := by
  induction h with
  | prep input cmp hne =>
    intro hc
    exact (prepare_props input cmp hc hne).2.2.2
  | @step t elems i v hr hi ih =>
    intro hc
    have hcor := ih hc
    obtain ⟨e1, e2, e3, e4, e5, e6⟩ := reachable_props hr
    intro q lq rq hq hlqm
    exact (set_leaf_correct e5 hc e3 e4 e1 e6 hcor hi v).2 q lq rq hq hlqm

/-- The central query theorem: on a Ready tree with a total consistent
comparator, `get_value` returns exactly the brute-force oracle's value. -/
theorem get_value_eq_bruteBest {t : Tree α} {elems : List α}
    (hc : TotalCmp t.compare_) (h : Reachable t elems) {f to_ : Nat}
    (hf : f ≤ to_) (ht : to_ < t.m_) :
    get_value t f to_ = bruteBest t.compare_ elems f to_ := by
  obtain ⟨e1, e2, e3, e4, e5, e6⟩ := reachable_props h
  have hcor : ∀ q lq rq, Node t.n_ q lq rq → lq ≤ t.m_ →
      t.data_.getD q default =
        bruteBest t.compare_ elems (lq - 1) (min rq t.m_ - 1) :=
    reachable_correct h hc
  have hval := gvs_value e5 hc t.data_ elems (f + 1) (to_ + 1) hcor
    (by omega) (by omega) e4 (t.n_ - 1) 1 1 t.n_ (by omega) Node.root
    (by omega) (by omega)
  rw [get_value, hval, max_eq_left (by omega : 1 ≤ f + 1),
    min_eq_left (by omega : to_ + 1 ≤ t.n_),
    show f + 1 - 1 = f by omega, show to_ + 1 - 1 = to_ by omega]

/-- A valid query always finds a hit: the winning index is nonzero. -/
theorem query_hit {n : Nat} (hn2 : IsPow2 n) (cmp : α → α → Int) (d : List α)
    {f t' : Nat} (hft : f ≤ t') (hfn : f ≤ n) (ht1 : 1 ≤ t') :
    get_value_sub cmp d f t' 1 1 n ≠ 0 := by
  obtain ⟨l', r', hnode, _, _⟩ :=
    (gvs_result hn2 cmp d f t' hft (n - 1) 1 1 n (by omega) Node.root).2
      ⟨hfn, ht1⟩
  intro hz
  rw [hz] at hnode
  exact absurd (node_pos hn2 hnode) (Nat.not_succ_le_zero 0)

/-- Bounds of the hit index of a valid query within the valid extent. -/
theorem query_hit_le {n m : Nat} (hn2 : IsPow2 n) (cmp : α → α → Int)
    (d : List α) {f t' : Nat} (hft : f ≤ t') (hf1 : 1 ≤ f) (htm : t' ≤ m)
    (hmn : m ≤ n) :
    get_value_sub cmp d f t' 1 1 n ≤ n + m - 1 := by
  obtain ⟨l', r', hnode, hb1, hb2⟩ :=
    (gvs_result hn2 cmp d f t' hft (n - 1) 1 1 n (by omega) Node.root).2
      ⟨by omega, by omega⟩
  obtain ⟨g1, g2, _, _⟩ := node_spec hn2 hnode
  refine node_le_storage hn2 hnode ?_
  have h1 : l' ≤ min t' n := le_trans g2 hb2
  have h2 : min t' n ≤ t' := min_le_left _ _
  omega

/-- The final iteration of the update walk operates at slot 0: the loop's
result holds, at index 0, the comparator-better of the old slot 0 and the
final root value (so the walk both reads and writes slot 0). -/
theorem updateLoop_slot0 (cmp : α → α → Int) :
    ∀ i (d : List α) e, 1 ≤ i → i ≤ e → 1 < d.length →
      (updateLoop cmp d i e).getD 0 default =
        best cmp (d.getD 0 default) ((updateLoop cmp d i e).getD 1 default) := by
  intro i
  induction i using Nat.strong_induction_on with
  | _ i ih =>
    intro d e h1 h2 hlen
    rcases Nat.lt_or_ge i 2 with hi2 | hi2
    · have hi1 : i = 1 := by omega
      subst hi1
      rw [updateLoop_eq, if_neg (by omega : ¬ (1:Nat) = 0)]
      simp only [show (1:Nat) / 2 = 0 by norm_num, Nat.zero_mul, Nat.zero_add]
      rw [updateLoop_zero]
      have h1e : 1 ≤ e := by omega
      by_cases hcmp : cmp (d.getD 0 default) (d.getD 1 default) ≤ 0
      · rw [if_neg (fun hcon => absurd hcon.2 (not_lt.mpr hcmp)),
          getD_set_self _ _ _ _ (by omega),
          getD_set_ne _ _ _ _ _ (by omega : (0:Nat) ≠ 1)]
        simp only [best, if_pos hcmp]
      · rw [if_pos ⟨h1e, not_le.mp hcmp⟩,
          getD_set_self _ _ _ _ (by omega),
          getD_set_ne _ _ _ _ _ (by omega : (0:Nat) ≠ 1)]
        simp only [best, if_neg hcmp]
    · rw [updateLoop_eq, if_neg (by omega : ¬ i = 0)]
      set D := d.set (i / 2) (d.getD
        (if i / 2 * 2 + 1 ≤ e ∧
            0 < cmp (d.getD (i / 2 * 2) default) (d.getD (i / 2 * 2 + 1) default)
         then i / 2 * 2 + 1 else i / 2 * 2) default) with hD
      have hD0 : D.getD 0 default = d.getD 0 default := by
        rw [hD]
        exact getD_set_ne _ _ _ _ _ (by omega : i / 2 ≠ 0)
      rw [← hD0]
      exact ih (i / 2) (by omega) D (e / 2) (by omega)
        (Nat.div_le_div_right h2) (by rw [hD, List.length_set]; exact hlen)

/-- All indices touched by the update loop stay within the given bound when
both the entry index and the bound value `e` do. -/
theorem updAccGo_bound :
    ∀ fuel i e bound, i ≤ bound → e ≤ bound →
      ∀ a ∈ updAccGo fuel i e, a ≤ bound := by
  intro fuel
  induction fuel with
  | zero =>
    intro i e bound _ _ a ha
    simp [updAccGo] at ha
  | succ fuel ih =>
    intro i e bound hi he a ha
    by_cases hz : i = 0
    · simp [updAccGo, hz] at ha
    · simp only [updAccGo, if_neg hz, List.mem_cons, List.mem_append] at ha
      have hd2 : i / 2 ≤ i := Nat.div_le_self i 2
      have hd22 : i / 2 * 2 ≤ i := by omega
      rcases ha with h | h | h
      · omega
      · omega
      · rcases h with h | h
        · by_cases hke : i / 2 * 2 + 1 ≤ e
          · rw [if_pos hke] at h
            simp only [List.mem_singleton] at h
            omega
          · rw [if_neg hke] at h
            simp at h
        · exact ih (i / 2) (e / 2) bound (by omega)
            (le_trans (Nat.div_le_self e 2) he) a h

/-- The indices accessed by `update` on a valid external index all stay
below the storage size. -/
theorem updateAccesses_bound {m n s : Nat} (hs : s < m) :
    ∀ a ∈ updateAccesses m n s, a < m + n := by
  intro a ha
  have := updAccGo_bound (s + n) (s + n) (m + n - 1) (m + n - 1)
    (by omega) (Nat.le_refl _) a ha
  omega

theorem gvsReadsGo_irrel (cmp : α → α → Int) (d : List α) (f t : Nat) :
    ∀ f1 f2 idx l r, r - l < f1 → r - l < f2 →
      gvsReadsGo cmp d f t f1 idx l r = gvsReadsGo cmp d f t f2 idx l r := by
  intro f1
  induction f1 with
  | zero => intro f2 idx l r h1 _; omega
  | succ f1 ih =>
    intro f2 idx l r h1 h2
    cases f2 with
    | zero => omega
    | succ f2 =>
      by_cases hg1 : r < f ∨ t < l
      · simp only [gvsReadsGo, if_pos hg1]
      · by_cases hg2 : f ≤ l ∧ r ≤ t
        · simp only [gvsReadsGo, if_neg hg1, if_pos hg2]
        · have hlr : l < r := by
            rcases Nat.lt_or_ge l r with h | h
            · exact h
            · exfalso; push_neg at hg1; omega
          have hc1 : (l + r) / 2 - l < f1 := by omega
          have hc2 : r - ((l + r) / 2 + 1) < f1 := by omega
          simp only [gvsReadsGo, if_neg hg1, if_neg hg2]
          rw [ih f2 (idx * 2) l ((l + r) / 2) hc1 (by omega),
            ih f2 (idx * 2 + 1) ((l + r) / 2 + 1) r hc2 (by omega),
            gvsGo_irrel cmp d f t f1 f2 (idx * 2) l ((l + r) / 2) hc1 (by omega),
            gvsGo_irrel cmp d f t f1 f2 (idx * 2 + 1) ((l + r) / 2 + 1) r hc2
              (by omega)]

/-- Every index read at a merge point of the query recursion is the nonzero
hit of a subquery, hence a node index inside the queried valid extent and
below the storage size. -/
theorem gvsReadsGo_bound {n m : Nat} (hn2 : IsPow2 n) (cmp : α → α → Int)
    (d : List α) {f t' : Nat} (hft : f ≤ t') (htm : t' ≤ m) (hmn : m ≤ n) :
    ∀ fuel idx l r, r - l < fuel → Node n idx l r →
      ∀ a ∈ gvsReadsGo cmp d f t' fuel idx l r, a ≤ n + m - 1 := by
  intro fuel
  induction fuel with
  | zero => intro idx l r h; omega
  | succ fuel ih =>
    intro idx l r hfu hnode a ha
    by_cases hg1 : r < f ∨ t' < l
    · simp only [gvsReadsGo, if_pos hg1] at ha
      simp at ha
    · by_cases hg2 : f ≤ l ∧ r ≤ t'
      · simp only [gvsReadsGo, if_neg hg1, if_pos hg2] at ha
        simp at ha
      · simp only [gvsReadsGo, if_neg hg1, if_neg hg2] at ha
        have hlr : l < r := by
          rcases Nat.lt_or_ge l r with h | h
          · exact h
          · exfalso; push_neg at hg1; omega
        simp only [List.mem_append] at ha
        rcases ha with (h | h) | h
        · exact ih (idx * 2) l ((l + r) / 2) (by omega)
            (Node.left hnode hlr) a h
        · exact ih (idx * 2 + 1) ((l + r) / 2 + 1) r (by omega)
            (Node.right hnode hlr) a h
        · rw [gvsGo_irrel cmp d f t' fuel ((l + r) / 2 + 1 - l) (idx * 2) l
              ((l + r) / 2) (by omega) (by omega),
            gvsGo_irrel cmp d f t' fuel (r + 1 - ((l + r) / 2 + 1)) (idx * 2 + 1)
              ((l + r) / 2 + 1) r (by omega) (by omega)] at h
          have hRL := gvs_result hn2 cmp d f t' hft ((l + r) / 2 - l) (idx * 2)
            l ((l + r) / 2) (by omega) (Node.left hnode hlr)
          have hRR := gvs_result hn2 cmp d f t' hft (r - ((l + r) / 2 + 1))
            (idx * 2 + 1) ((l + r) / 2 + 1) r (by omega) (Node.right hnode hlr)
          by_cases hj :
              gvsGo cmp d f t' (r + 1 - ((l + r) / 2 + 1)) (idx * 2 + 1)
                ((l + r) / 2 + 1) r = 0
          · rw [if_pos hj] at h
            simp at h
          · rw [if_neg hj] at h
            by_cases hi : gvsGo cmp d f t' ((l + r) / 2 + 1 - l) (idx * 2) l
                ((l + r) / 2) = 0
            · rw [if_pos hi] at h
              simp at h
            · rw [if_neg hi] at h
              have hiov : f ≤ (l + r) / 2 ∧ l ≤ t' := by
                by_contra hno
                exact hi (hRL.1 hno)
              have hjov : f ≤ r ∧ (l + r) / 2 + 1 ≤ t' := by
                by_contra hno
                exact hj (hRR.1 hno)
              obtain ⟨l1, r1, hn1, ha1, ha2⟩ := hRL.2 hiov
              obtain ⟨l2, r2, hn2', hb1, hb2⟩ := hRR.2 hjov
              simp only [List.mem_cons, List.mem_singleton] at h
              rcases h with h | h | h
              · subst h
                refine node_le_storage hn2 hn1 ?_
                obtain ⟨g1, g2, _, _⟩ := node_spec hn2 hn1
                have hx : r1 ≤ min t' ((l + r) / 2) := ha2
                have hy : min t' ((l + r) / 2) ≤ t' := min_le_left _ _
                omega
              · subst h
                refine node_le_storage hn2 hn2' ?_
                obtain ⟨g1, g2, _, _⟩ := node_spec hn2 hn2'
                have hx : r2 ≤ min t' r := hb2
                have hy : min t' r ≤ t' := min_le_left _ _
                omega
              · simp at h

theorem intCmp_le (x y : Int) : intCmp x y ≤ 0 ↔ x ≤ y := by
  unfold intCmp
  split_ifs with h1 h2 <;> omega

/-- The driver's comparator is a total, consistent ordering. -/
theorem intCmp_total : TotalCmp intCmp := by
  constructor
  · intro x y
    rw [intCmp_le, intCmp_le]
    omega
  · intro x y z h1 h2
    rw [intCmp_le] at h1 h2 ⊢
    omega

/-- C1: on every Ready tree built over a sequence with a total, consistent
comparator, and for all `from ≤ to < m`, `get_value from to` equals the
comparator-best element of the sequence's current values over `from..to`,
i.e. the result of the brute-force left-to-right linear scan with the same
comparator. -/
theorem C1_query_matches_bruteforce (t : Tree α) (elems : List α)
    (f to_ : Nat) (hcmp : TotalCmp t.compare_) (hready : Reachable t elems)
    (hf : f ≤ to_) (ht : to_ < t.m_) :
    get_value t f to_ = bruteBest t.compare_ elems f to_ :=
  get_value_eq_bruteBest hcmp hready hf ht

theorem C1_witness :
    TotalCmp (prepare ([7, 2] : List Int) intCmp).compare_ ∧
    Reachable (prepare ([7, 2] : List Int) intCmp) [7, 2] ∧
    (0:Nat) ≤ 1 ∧ 1 < (prepare ([7, 2] : List Int) intCmp).m_ ∧
    get_value (prepare ([7, 2] : List Int) intCmp) 0 1 =
      bruteBest (prepare ([7, 2] : List Int) intCmp).compare_ [7, 2] 0 1 :=
  ⟨intCmp_total, Reachable.prep _ _ (by decide), by decide, by decide,
    C1_query_matches_bruteforce (prepare ([7, 2] : List Int) intCmp) [7, 2] 0 1
      intCmp_total (Reachable.prep _ _ (by decide)) (by decide) (by decide)⟩

/-- C2: immediately after `prepare` and after every completed `set_leaf`
(i.e. in every Ready state), each internal node `1 ≤ i < n` whose subtree
overlaps a valid leaf holds the comparator-better of its children (ties to
the left child `i*2`), restricted to the valid part: when the right child's
subtree contains no valid leaf the node simply holds the left child. -/
theorem C2_internal_invariant (t : Tree α) (elems : List α) (i l r : Nat)
    (hcmp : TotalCmp t.compare_) (hready : Reachable t elems)
    (hnode : Node t.n_ i l r) (hin : i < t.n_) (hov : l ≤ t.m_) :
    t.data_.getD i default =
      if (l + r) / 2 + 1 ≤ t.m_ then
        best t.compare_ (t.data_.getD (i * 2) default)
          (t.data_.getD (i * 2 + 1) default)
      else t.data_.getD (i * 2) default := by
  obtain ⟨e1, e2, e3, e4, e5, e6⟩ := reachable_props hready
  have hcor : ∀ q lq rq, Node t.n_ q lq rq → lq ≤ t.m_ →
      t.data_.getD q default =
        bruteBest t.compare_ elems (lq - 1) (min rq t.m_ - 1) :=
    reachable_correct hready hcmp
  obtain ⟨h1, h2, h3, jw, hww, hqq⟩ := node_spec e5 hnode
  have hlt : l < r := by
    rcases Nat.lt_or_eq_of_le h2 with h | h
    · exact h
    · exfalso
      cases jw with
      | zero =>
        rw [pow_zero, Nat.mul_one] at hqq
        omega
      | succ jv =>
        have h2w : 2 ≤ 2 ^ (jv + 1) := by
          calc (2:Nat) = 2 ^ 1 := (pow_one 2).symm
          _ ≤ 2 ^ (jv + 1) := Nat.pow_le_pow_right (by omega) (by omega)
        omega
  have hnl := Node.left hnode hlt
  have hnr := Node.right hnode hlt
  have hvp := hcor i l r hnode hov
  have hvl := hcor (i * 2) l ((l + r) / 2) hnl hov
  have hclr : (l + r) / 2 < r := by omega
  have hcll : l ≤ (l + r) / 2 := by omega
  by_cases hcm : (l + r) / 2 + 1 ≤ t.m_
  · rw [if_pos hcm]
    have hvr := hcor (i * 2 + 1) ((l + r) / 2 + 1) r hnr hcm
    rw [hvp, hvl, hvr, min_eq_left (by omega : (l + r) / 2 ≤ t.m_),
      show (l + r) / 2 + 1 - 1 = (l + r) / 2 by omega]
    exact bruteBest_split1 hcmp elems h1 hcll
      (Nat.lt_of_succ_le (le_min (by omega) hcm))
  · rw [if_neg hcm]
    rw [hvp, hvl, min_eq_right (by omega : t.m_ ≤ (l + r) / 2),
      min_eq_right (by omega : t.m_ ≤ r)]

theorem C2_witness :
    TotalCmp (prepare ([7, 2] : List Int) intCmp).compare_ ∧
    Reachable (prepare ([7, 2] : List Int) intCmp) [7, 2] ∧
    Node (prepare ([7, 2] : List Int) intCmp).n_ 1 1 2 ∧
    1 < (prepare ([7, 2] : List Int) intCmp).n_ ∧
    (1:Nat) ≤ (prepare ([7, 2] : List Int) intCmp).m_ ∧
    (prepare ([7, 2] : List Int) intCmp).data_.getD 1 default =
      (if (1 + 2) / 2 + 1 ≤ (prepare ([7, 2] : List Int) intCmp).m_ then
        best (prepare ([7, 2] : List Int) intCmp).compare_
          ((prepare ([7, 2] : List Int) intCmp).data_.getD (1 * 2) default)
          ((prepare ([7, 2] : List Int) intCmp).data_.getD (1 * 2 + 1) default)
      else (prepare ([7, 2] : List Int) intCmp).data_.getD (1 * 2) default) :=
  ⟨intCmp_total, Reachable.prep _ _ (by decide), Node.root, by decide, by decide,
    C2_internal_invariant (prepare ([7, 2] : List Int) intCmp) [7, 2] 1 1 2
      intCmp_total (Reachable.prep _ _ (by decide)) Node.root (by decide)
      (by decide)⟩

/-- C3: on every Ready tree, after `set_leaf i v` a query of the single
position `i` returns exactly `v`, and every valid query whose range does not
contain `i` returns the same value as before the update. -/
theorem C3_point_update (t : Tree α) (elems : List α) (i : Nat) (v : α)
    (hcmp : TotalCmp t.compare_) (hready : Reachable t elems)
    (hi : i < t.m_) :
    get_value (set_leaf t i v) i i = v ∧
    (∀ f to_, f ≤ to_ → to_ < t.m_ → ¬ (f ≤ i ∧ i ≤ to_) →
      get_value (set_leaf t i v) f to_ = get_value t f to_) := by
  obtain ⟨e1, e2, e3, e4, e5, e6⟩ := reachable_props hready
  have hready' : Reachable (set_leaf t i v) (elems.set i v) :=
    Reachable.step i v hready hi
  have hcmp' : TotalCmp (set_leaf t i v).compare_ := hcmp
  constructor
  · rw [get_value_eq_bruteBest hcmp' hready' (Nat.le_refl i)
      (show i < (set_leaf t i v).m_ from hi), bruteBest_self]
    exact getD_set_self _ _ _ _ (by omega)
  · intro f to_ hf hto hni
    rw [get_value_eq_bruteBest hcmp' hready' hf
        (show to_ < (set_leaf t i v).m_ from hto),
      get_value_eq_bruteBest hcmp hready hf hto]
    exact bruteBest_set_ne _ elems i v hf (by omega)

theorem C3_witness :
    TotalCmp (prepare ([7, 2, 4] : List Int) intCmp).compare_ ∧
    Reachable (prepare ([7, 2, 4] : List Int) intCmp) [7, 2, 4] ∧
    1 < (prepare ([7, 2, 4] : List Int) intCmp).m_ ∧
    get_value (set_leaf (prepare ([7, 2, 4] : List Int) intCmp) 1 9) 1 1 = 9 ∧
    get_value (set_leaf (prepare ([7, 2, 4] : List Int) intCmp) 1 9) 2 2 =
      get_value (prepare ([7, 2, 4] : List Int) intCmp) 2 2 :=
  ⟨intCmp_total, Reachable.prep _ _ (by decide), by decide,
    (C3_point_update (prepare ([7, 2, 4] : List Int) intCmp) [7, 2, 4] 1 9
      intCmp_total (Reachable.prep _ _ (by decide)) (by decide)).1,
    (C3_point_update (prepare ([7, 2, 4] : List Int) intCmp) [7, 2, 4] 1 9
      intCmp_total (Reachable.prep _ _ (by decide)) (by decide)).2 2 2
      (Nat.le_refl 2) (by decide) (by decide)⟩

/-- C4: on every Ready tree with a total consistent comparator, when a query
range holds several equally-ranked best elements, `get_value` returns the
value of the optimal element at the lowest index of the range: if `p` is
optimal over `from..to` and no earlier index of the range is optimal, the
query returns the element at `p` (ties go to the left child in every merge
of `update` and to the left subtree's hit in the query decomposition). -/
theorem C4_tie_prefers_lowest_index (t : Tree α) (elems : List α)
    (f to_ p : Nat) (hcmp : TotalCmp t.compare_) (hready : Reachable t elems)
    (hf : f ≤ to_) (ht : to_ < t.m_) (hp1 : f ≤ p) (hp2 : p ≤ to_)
    (hopt : ∀ q, f ≤ q → q ≤ to_ →
      t.compare_ (elems.getD p default) (elems.getD q default) ≤ 0)
    (hleft : ∀ q, f ≤ q → q < p →
      ¬ ∀ q', f ≤ q' → q' ≤ to_ →
        t.compare_ (elems.getD q default) (elems.getD q' default) ≤ 0) :
    get_value t f to_ = elems.getD p default := by
  rw [get_value_eq_bruteBest hcmp hready hf ht, bruteBest_eq_idx]
  have hbmem := bruteBestIdx_mem t.compare_ elems f to_ hf
  have hbopt := bruteBestIdx_optimal hcmp elems f to_ hf
  rcases Nat.lt_trichotomy p (bruteBestIdx t.compare_ elems f to_)
    with h | h | h
  · exact absurd (hopt _ hbmem.1 hbmem.2)
      (bruteBestIdx_leftmost hcmp elems f to_ hf p hp1 h)
  · rw [← h]
  · exact absurd (fun q' hq1 hq2 => hbopt q' hq1 hq2)
      (hleft _ hbmem.1 h)

theorem C4_witness :
    TotalCmp (prepare ([7, 5, 5] : List Int) intCmp).compare_ ∧
    Reachable (prepare ([7, 5, 5] : List Int) intCmp) [7, 5, 5] ∧
    (0:Nat) ≤ 2 ∧ 2 < (prepare ([7, 5, 5] : List Int) intCmp).m_ ∧
    (0:Nat) ≤ 1 ∧ (1:Nat) ≤ 2 ∧
    get_value (prepare ([7, 5, 5] : List Int) intCmp) 0 2 =
      ([7, 5, 5] : List Int).getD 1 default :=
  ⟨intCmp_total, Reachable.prep _ _ (by decide), by decide, by decide,
    by decide, by decide,
    C4_tie_prefers_lowest_index (prepare ([7, 5, 5] : List Int) intCmp)
      [7, 5, 5] 0 2 1 intCmp_total (Reachable.prep _ _ (by decide))
      (by decide) (by decide) (by decide) (by decide)
      (by
        intro q h1 h2
        interval_cases q <;> decide)
      (by
        intro q h1 h2
        interval_cases q
        intro hall
        exact absurd (hall 1 (by omega) (by omega)) (by decide))⟩

/-- C5 counterexample: storage slot 0 is NOT left untouched.  Building a
min-tree over `[-1, -2]` ends with slot 0 holding `-2`, not the value
`default = 0` that the allocation put there, because the final iteration of
`update`'s `while (0 < i)` loop runs with `i = 1` and writes `data_[1/2] =
data_[0]`; the access trace of the rebuild pass over leaf 0 indeed contains
index 0. -/
theorem C5_counterexample :
    (prepare ([-1, -2] : List Int) intCmp).data_.getD 0 default = -2 ∧
    (default : Int) = 0 ∧
    0 ∈ updateAccesses 2 2 0 := by
  decide

/-- C5 (amended): slot 0 IS read and written — the last trip of the update
loop overwrites it with the better of its old value and the final root — but
the 1-based layout is otherwise as described: query decomposition never
returns index 0 on a valid range, and the root of the answers lives at
index 1. -/
theorem C5_slot0_not_unused :
    (∀ (cmp : α → α → Int) (d : List α) (i e : Nat), 1 ≤ i → i ≤ e →
      1 < d.length →
      (updateLoop cmp d i e).getD 0 default =
        best cmp (d.getD 0 default) ((updateLoop cmp d i e).getD 1 default)) ∧
    (∀ (t : Tree α) (elems : List α) (f to_ : Nat), Reachable t elems →
      f ≤ to_ → to_ < t.m_ →
      get_value_sub t.compare_ t.data_ (f + 1) (to_ + 1) 1 1 t.n_ ≠ 0) ∧
    (∀ (t : Tree α) (elems : List α), TotalCmp t.compare_ →
      Reachable t elems →
      t.data_.getD 1 default = bruteBest t.compare_ elems 0 (t.m_ - 1)) := by
  refine ⟨?_, ?_, ?_⟩
  · intro cmp d i e h1 h2 h3
    exact updateLoop_slot0 cmp i d e h1 h2 h3
  · intro t elems f to_ hready hf ht
    obtain ⟨e1, e2, e3, e4, e5, e6⟩ := reachable_props hready
    exact query_hit e5 t.compare_ t.data_ (by omega) (by omega) (by omega)
  · intro t elems hcmp hready
    obtain ⟨e1, e2, e3, e4, e5, e6⟩ := reachable_props hready
    have hmin : min t.n_ t.m_ = t.m_ := min_eq_right e4
    have h := reachable_correct hready hcmp 1 1 t.n_ Node.root (by omega)
    rw [h, hmin]

theorem C5_witness :
    (1:Nat) ≤ 2 ∧ (2:Nat) ≤ 3 ∧ 1 < ([0, 5, 1, 2] : List Int).length ∧
    (updateLoop intCmp ([0, 5, 1, 2] : List Int) 2 3).getD 0 default =
      best intCmp (([0, 5, 1, 2] : List Int).getD 0 default)
        ((updateLoop intCmp ([0, 5, 1, 2] : List Int) 2 3).getD 1 default) :=
  ⟨by decide, by decide, by decide,
    (C5_slot0_not_unused (α := Int)).1 intCmp [0, 5, 1, 2] 2 3 (by decide)
      (by decide) (by decide)⟩

/-- C6: each checked operation fails fast exactly on its precondition
violation — `prepare` with absent data, absent comparator, or zero elements
gives `InvalidArgument`; `get_value` with `from > to` or `to ≥ m` gives
`InvalidArgument`; `set_leaf` with `i ≥ m` gives `OutOfRange` — and each
succeeds whenever its precondition holds. -/
theorem C6_error_handling :
    (∀ (cmp : Option (α → α → Int)),
      prepareChecked (none : Option (List α)) cmp = .error .invalidArgument) ∧
    (∀ (input : Option (List α)),
      prepareChecked input (none : Option (α → α → Int)) =
        .error .invalidArgument) ∧
    (∀ (cmp : α → α → Int),
      prepareChecked (some ([] : List α)) (some cmp) =
        .error .invalidArgument) ∧
    (∀ (input : List α) (cmp : α → α → Int), input ≠ [] →
      prepareChecked (some input) (some cmp) = .ok (prepare input cmp)) ∧
    (∀ (t : Tree α) (i : Nat) (v : α), i < t.m_ →
      set_leafChecked t i v = .ok (set_leaf t i v)) ∧
    (∀ (t : Tree α) (i : Nat) (v : α), ¬ i < t.m_ →
      set_leafChecked t i v = .error .outOfRange) ∧
    (∀ (t : Tree α) (f to_ : Nat), ¬ (f ≤ to_ ∧ to_ < t.m_) →
      get_valueChecked t f to_ = .error .invalidArgument) ∧
    (∀ (t : Tree α) (elems : List α) (f to_ : Nat), Reachable t elems →
      f ≤ to_ → to_ < t.m_ →
      get_valueChecked t f to_ = .ok (get_value t f to_)) := by
  refine ⟨?_, ?_, fun cmp => rfl, ?_, ?_, ?_, ?_, ?_⟩
  · intro cmp
    cases cmp <;> rfl
  · intro input
    cases input <;> rfl
  · intro input cmp hne
    have hlen : ¬ input.length = 0 := fun h => hne (List.length_eq_zero.mp h)
    simp only [prepareChecked, if_neg hlen]
  · intro t i v h
    simp only [set_leafChecked, if_pos h]
  · intro t i v h
    simp only [set_leafChecked, if_neg h]
  · intro t f to_ h
    by_cases h1 : f ≤ to_
    · have h2 : ¬ to_ < t.m_ := fun h2 => h ⟨h1, h2⟩
      simp only [get_valueChecked, if_pos h1, if_neg h2]
    · simp only [get_valueChecked, if_neg h1]
  · intro t elems f to_ hready hf ht
    obtain ⟨e1, e2, e3, e4, e5, e6⟩ := reachable_props hready
    have hnz : ¬ get_value_sub t.compare_ t.data_ (f + 1) (to_ + 1) 1 1 t.n_ = 0 :=
      query_hit e5 t.compare_ t.data_ (by omega) (by omega) (by omega)
    simp only [get_valueChecked, if_pos hf, if_pos ht, if_neg hnz, get_value]

theorem C6_witness :
    Reachable (prepare ([4, 1] : List Int) intCmp) [4, 1] ∧
    (0:Nat) ≤ 1 ∧ 1 < (prepare ([4, 1] : List Int) intCmp).m_ ∧
    get_valueChecked (prepare ([4, 1] : List Int) intCmp) 0 1 =
      .ok (get_value (prepare ([4, 1] : List Int) intCmp) 0 1) :=
  ⟨Reachable.prep _ _ (by decide), by decide, by decide,
    (C6_error_handling (α := Int)).2.2.2.2.2.2.2
      (prepare ([4, 1] : List Int) intCmp) [4, 1] 0 1
      (Reachable.prep _ _ (by decide)) (by decide) (by decide)⟩

/-- C7: the driver's concrete scenario — a min-tree over
`[7,2,4,3,9,8,0,6,5,1]` answers the five queries of `main.cpp` with
2, 3, 0, 5 and 1. -/
theorem C7_driver_example :
    get_value (prepare ([7, 2, 4, 3, 9, 8, 0, 6, 5, 1] : List Int) intCmp) 1 2
        = 2 ∧
    get_value (prepare ([7, 2, 4, 3, 9, 8, 0, 6, 5, 1] : List Int) intCmp) 2 4
        = 3 ∧
    get_value (prepare ([7, 2, 4, 3, 9, 8, 0, 6, 5, 1] : List Int) intCmp) 3 7
        = 0 ∧
    get_value (prepare ([7, 2, 4, 3, 9, 8, 0, 6, 5, 1] : List Int) intCmp) 8 8
        = 5 ∧
    get_value (prepare ([7, 2, 4, 3, 9, 8, 0, 6, 5, 1] : List Int) intCmp) 7 9
        = 1 := by
  decide

/-- C8: `prepare` computes `n_` as the least power of two at or above `m`
(so 1, 2, 8, 8, 16 for m = 1, 2, 5, 8, 10), allocates exactly `m + n`
storage slots, and a valid query's answer always comes from a valid element
position inside the queried range — never from a padding leaf at position
`≥ m`. -/
theorem C8_pow2_sizing :
    (∀ m : Nat, 1 ≤ m → IsPow2 (pow2ge m) ∧ m ≤ pow2ge m ∧
      ∀ p, IsPow2 p → m ≤ p → pow2ge m ≤ p) ∧
    (pow2ge 1 = 1 ∧ pow2ge 2 = 2 ∧ pow2ge 5 = 8 ∧ pow2ge 8 = 8 ∧
      pow2ge 10 = 16) ∧
    (∀ (input : List α) (cmp : α → α → Int), input ≠ [] →
      (prepare input cmp).n_ = pow2ge input.length ∧
      (prepare input cmp).data_.length =
        input.length + pow2ge input.length) ∧
    (∀ (t : Tree α) (elems : List α) (f to_ : Nat), TotalCmp t.compare_ →
      Reachable t elems → f ≤ to_ → to_ < t.m_ →
      ∃ p, f ≤ p ∧ p ≤ to_ ∧ p < t.m_ ∧
        get_value t f to_ = elems.getD p default) := by
  refine ⟨?_, by decide, ?_, ?_⟩
  · intro m hm
    exact ⟨pow2ge_isPow2 m, pow2ge_ge m, pow2ge_min m⟩
  · intro input cmp hne
    obtain ⟨e1, e2, e3, e4, e5, e6⟩ :=
      reachable_props (Reachable.prep input cmp hne)
    exact ⟨rfl, e6⟩
  · intro t elems f to_ hcmp hready hf ht
    rw [get_value_eq_bruteBest hcmp hready hf ht]
    obtain ⟨p, hp1, hp2, hp3⟩ := bruteBest_mem t.compare_ elems f to_ hf
    exact ⟨p, hp1, hp2, by omega, hp3⟩

theorem C8_witness :
    ((1:Nat) ≤ 5 ∧ IsPow2 (pow2ge 5) ∧ 5 ≤ pow2ge 5 ∧ IsPow2 8 ∧
      pow2ge 5 ≤ 8) ∧
    (([3, 1] : List Int) ≠ [] ∧
      (prepare ([3, 1] : List Int) intCmp).data_.length =
        ([3, 1] : List Int).length + pow2ge ([3, 1] : List Int).length) ∧
    (TotalCmp (prepare ([3, 1] : List Int) intCmp).compare_ ∧
      Reachable (prepare ([3, 1] : List Int) intCmp) [3, 1] ∧
      (0:Nat) ≤ 1 ∧ 1 < (prepare ([3, 1] : List Int) intCmp).m_ ∧
      ∃ p, 0 ≤ p ∧ p ≤ 1 ∧ p < (prepare ([3, 1] : List Int) intCmp).m_ ∧
        get_value (prepare ([3, 1] : List Int) intCmp) 0 1 =
          ([3, 1] : List Int).getD p default) :=
  ⟨⟨by decide, ((C8_pow2_sizing (α := Int)).1 5 (by decide)).1,
      ((C8_pow2_sizing (α := Int)).1 5 (by decide)).2.1, ⟨3, rfl⟩,
      ((C8_pow2_sizing (α := Int)).1 5 (by decide)).2.2 8 ⟨3, rfl⟩
        (by decide)⟩,
    ⟨by decide,
      ((C8_pow2_sizing (α := Int)).2.2.1 [3, 1] intCmp (by decide)).2⟩,
    ⟨intCmp_total, Reachable.prep _ _ (by decide), by decide, by decide,
      (C8_pow2_sizing (α := Int)).2.2.2 (prepare ([3, 1] : List Int) intCmp)
        [3, 1] 0 1 intCmp_total (Reachable.prep _ _ (by decide)) (by decide)
        (by decide)⟩⟩

/-- C9: under each operation's precondition every storage access stays below
`m + n`: the set_leaf walk (leaf write plus the update loop's reads and
writes with the halved bound `e`) touches only indices `< m + n`, and a
valid query reads only merge candidates and a winning index `< m + n`. -/
theorem C9_access_bounds :
    (∀ (m n s : Nat), s < m → ∀ a ∈ updateAccesses m n s, a < m + n) ∧
    (∀ (t : Tree α) (elems : List α) (i : Nat), Reachable t elems →
      i < t.m_ →
      ∀ a ∈ set_leafAccesses t.m_ t.n_ i, a < t.data_.length) ∧
    (∀ (t : Tree α) (elems : List α) (f to_ : Nat), Reachable t elems →
      f ≤ to_ → to_ < t.m_ →
      (∀ a ∈ get_value_reads t.compare_ t.data_ (f + 1) (to_ + 1) 1 1 t.n_,
        a < t.m_ + t.n_) ∧
      get_value_sub t.compare_ t.data_ (f + 1) (to_ + 1) 1 1 t.n_ <
        t.m_ + t.n_) := by
  refine ⟨fun m n s hs => updateAccesses_bound hs, ?_, ?_⟩
  · intro t elems i hready hi
    obtain ⟨e1, e2, e3, e4, e5, e6⟩ := reachable_props hready
    intro a ha
    rw [e6]
    rcases List.mem_cons.mp ha with h | h
    · omega
    · have := updateAccesses_bound hi a h
      omega
  · intro t elems f to_ hready hf ht
    obtain ⟨e1, e2, e3, e4, e5, e6⟩ := reachable_props hready
    constructor
    · intro a ha
      have := gvsReadsGo_bound e5 t.compare_ t.data_
        (show f + 1 ≤ to_ + 1 by omega) (show to_ + 1 ≤ t.m_ by omega) e4
        (t.n_ + 1 - 1) 1 1 t.n_ (by omega) Node.root a ha
      omega
    · have := query_hit_le e5 t.compare_ t.data_
        (show f + 1 ≤ to_ + 1 by omega) (by omega)
        (show to_ + 1 ≤ t.m_ by omega) e4
      omega

theorem C9_witness :
    ((1:Nat) < 3 ∧ ∀ a ∈ updateAccesses 3 4 1, a < 3 + 4) ∧
    (Reachable (prepare ([5, 2, 7] : List Int) intCmp) [5, 2, 7] ∧
      (0:Nat) ≤ 2 ∧ 2 < (prepare ([5, 2, 7] : List Int) intCmp).m_ ∧
      ((∀ a ∈ get_value_reads (prepare ([5, 2, 7] : List Int) intCmp).compare_
          (prepare ([5, 2, 7] : List Int) intCmp).data_ (0 + 1) (2 + 1) 1 1
          (prepare ([5, 2, 7] : List Int) intCmp).n_,
        a < (prepare ([5, 2, 7] : List Int) intCmp).m_ +
          (prepare ([5, 2, 7] : List Int) intCmp).n_) ∧
      get_value_sub (prepare ([5, 2, 7] : List Int) intCmp).compare_
          (prepare ([5, 2, 7] : List Int) intCmp).data_ (0 + 1) (2 + 1) 1 1
          (prepare ([5, 2, 7] : List Int) intCmp).n_ <
        (prepare ([5, 2, 7] : List Int) intCmp).m_ +
          (prepare ([5, 2, 7] : List Int) intCmp).n_)) :=
  ⟨⟨by decide, (C9_access_bounds (α := Int)).1 3 4 1 (by decide)⟩,
    ⟨Reachable.prep _ _ (by decide), by decide, by decide,
      (C9_access_bounds (α := Int)).2.2 (prepare ([5, 2, 7] : List Int) intCmp)
        [5, 2, 7] 0 2 (Reachable.prep _ _ (by decide)) (by decide)
        (by decide)⟩⟩

/-- C10: `set_leaf i v` changes nothing outside the leaf slot `n + i` and
its ancestor chain of iterated halvings: storage keeps its length, and every
slot `p` different from `n + i` and from every `(n + i) / 2^u` (u ≥ 1)
keeps exactly its previous value. -/
theorem C10_set_leaf_frame (t : Tree α) (i : Nat) (v : α) :
    (set_leaf t i v).data_.length = t.data_.length ∧
    ∀ p, p ≠ t.n_ + i → (∀ u, 1 ≤ u → p ≠ (t.n_ + i) / 2 ^ u) →
      (set_leaf t i v).data_.getD p default = t.data_.getD p default := by
  have hcomm : i + t.n_ = t.n_ + i := Nat.add_comm i t.n_
  constructor
  · show (updateLoop t.compare_ (set_leaf_simply t.n_ t.data_ i v)
        (i + t.n_) (t.m_ + t.n_ - 1)).length = t.data_.length
    rw [updateLoop_length]
    exact List.length_set t.data_ _ v
  · intro p hp1 hp2
    show (updateLoop t.compare_ (set_leaf_simply t.n_ t.data_ i v)
        (i + t.n_) (t.m_ + t.n_ - 1)).getD p default = t.data_.getD p default
    rw [hcomm, updateLoop_frame t.compare_ _ (t.n_ + i) (t.m_ + t.n_ - 1)
      p hp2]
    show (t.data_.set (t.n_ + i) v).getD p default = t.data_.getD p default
    exact getD_set_ne _ _ _ _ _ (fun h => hp1 h.symm)

theorem C10_witness :
    (set_leaf (prepare ([7, 2, 4] : List Int) intCmp) 1 9).data_.length =
      (prepare ([7, 2, 4] : List Int) intCmp).data_.length ∧
    (set_leaf (prepare ([7, 2, 4] : List Int) intCmp) 1 9).data_.getD 3
        default =
      (prepare ([7, 2, 4] : List Int) intCmp).data_.getD 3 default :=
  ⟨(C10_set_leaf_frame (prepare ([7, 2, 4] : List Int) intCmp) 1 9).1,
    (C10_set_leaf_frame (prepare ([7, 2, 4] : List Int) intCmp) 1 9).2 3
      (by decide)
      (by
        show ∀ u, 1 ≤ u → 3 ≠ 5 / 2 ^ u
        intro u hu
        have h2 : (2:Nat) ≤ 2 ^ u := by
          calc (2:Nat) = 2 ^ 1 := (pow_one 2).symm
          _ ≤ 2 ^ u := Nat.pow_le_pow_right (by omega) hu
        have h5 : 5 / 2 ^ u ≤ 5 / 2 := Nat.div_le_div_left h2 (by omega)
        omega)⟩

end SegTree
